import Mathlib

/-!
Verification of the matching-and-ranking engine of the Tubes3_chisli repository.

Strings are modelled as `List Char`; Python's `str.lower()` is modelled by
mapping `Char.toLower` over the characters (the repository only ever matches
over text whose relevant characters are ASCII, where the two agree).
Python `float` scores are modelled as exact rationals (`ℚ`); the comparisons
and arithmetic used by the engine (sums and order comparisons of
similarity scores) are faithfully mirrored on `ℚ`.

Each definition carries a comment naming the source function it embeds.
While-loops are compiled to tail-recursive functions on the same state
variables, driven by an explicit fuel argument that dominates the loop
variant; the correctness lemmas show the fuel is never exhausted.
-/

/-- Characters of a string literal, used to write concrete test inputs. -/
def strL (s : String) : List Char := s.data

/-- Python `str.lower()` applied characterwise (`pattern.lower()`, `text.lower()`). -/
def lowerStr (s : List Char) : List Char := s.map Char.toLower

/-- Specification predicate: the pattern `p` occurs in `t` at offset `i`. -/
def occursAtP (t p : List Char) (i : Nat) : Prop := p <+: t.drop i

/-- Specification: the ascending list of all offsets at which `p` occurs in `t`
(overlapping occurrences included).  For nonempty `p` every occurrence offset
lies below `t.length + 1 - p.length`. -/
def occList (t p : List Char) : List Nat :=
  (List.range (t.length + 1 - p.length)).filter (fun i => decide (p <+: t.drop i))

/-- Specification of the exact matchers: case-insensitive occurrence list,
empty for the empty pattern. -/
def matchSpec (text pat : List Char) : List Nat :=
  if pat = [] then [] else occList (lowerStr text) (lowerStr pat)

/-! ### KMP (src/algorithms/kmp.py) -/

/-- Inner while-loop of `KMPMatcher._build_failure_function`
(`while j > 0 and pattern[i] != pattern[j]: j = failure[j - 1]`). -/
def kmpChase (p : List Char) (tab : List Nat) (c : Char) : Nat → Nat → Nat
  | 0, j => j
  | fuel + 1, j =>
    if 0 < j ∧ p.getD j ' ' ≠ c then kmpChase p tab c fuel (tab.getD (j - 1) 0) else j

/-- Outer `for i in range(1, len(pattern))` loop of
`KMPMatcher._build_failure_function`; the table is written in index order, so
it is built by appending (`failure[i] = j`). -/
def kmpBuildGo (p : List Char) : Nat → Nat → List Nat → Nat → List Nat
  | 0, _, tab, _ => tab
  | cnt + 1, i, tab, j =>
    let c := p.getD i ' '
    let j1 := kmpChase p tab c (j + 1) j
    let j2 := if c = p.getD j1 ' ' then j1 + 1 else j1
    kmpBuildGo p cnt (i + 1) (tab ++ [j2]) j2

/-- `KMPMatcher._build_failure_function` (kmp.py lines 40-54). -/
def buildFailureFunction (p : List Char) : List Nat :=
  if p.length = 0 then [] else kmpBuildGo p (p.length - 1) 1 [0] 0

/-- Main `while i < len(text)` loop of `KMPMatcher.search` (kmp.py lines 24-36),
on the state `(i, j, matches)`.  The fuel dominates the variant
`2 * (len(text) - i) + j`, which strictly decreases at every iteration. -/
def kmpSearchLoop (t p : List Char) (failure : List Nat) :
    Nat → Nat → Nat → List Nat → List Nat
  | 0, _, _, ms => ms
  | fuel + 1, i, j, ms =>
    if i < t.length then
      if t.getD i ' ' = p.getD j ' ' then
        if j + 1 = p.length then
          kmpSearchLoop t p failure fuel (i + 1) (failure.getD j 0) (ms ++ [i + 1 - (j + 1)])
        else
          kmpSearchLoop t p failure fuel (i + 1) (j + 1) ms
      else if j ≠ 0 then
        kmpSearchLoop t p failure fuel i (failure.getD (j - 1) 0) ms
      else
        kmpSearchLoop t p failure fuel (i + 1) j ms
    else ms

/-- `KMPMatcher.search` (kmp.py lines 9-38). -/
def kmpSearch (text pat : List Char) : List Nat :=
  if pat = [] ∨ text = [] then []
  else
    let p := lowerStr pat
    let t := lowerStr text
    let failure := buildFailureFunction p
    kmpSearchLoop t p failure (2 * t.length + p.length + 1) 0 0 []

/-! ### Boyer-Moore (src/algorithms/boyer_moore.py) -/

/-- `BoyerMooreMatcher._build_last_occurrence_table` followed by
`last_occurrence.get(c, -1)`: the dict is written in ascending index order, so
the stored value is the last matching index, `-1` when absent. -/
def lastOccurrenceOf (p : List Char) (c : Char) : Int :=
  (List.range p.length).foldl (fun acc i => if p.getD i ' ' = c then (i : Int) else acc) (-1)

/-- Inner right-to-left comparison loop of `BoyerMooreMatcher.search`
(`while j >= 0 and pattern[j] == text[shift + j]: j -= 1`): `none` means the
loop ran past `j = 0` (full match), `some j` is the mismatch position. -/
def bmCheckFrom (t p : List Char) (shift : Nat) : Nat → Option Nat
  | 0 => if p.getD 0 ' ' = t.getD (shift + 0) ' ' then none else some 0
  | j' + 1 =>
    if p.getD (j' + 1) ' ' = t.getD (shift + (j' + 1)) ' ' then bmCheckFrom t p shift j'
    else some (j' + 1)

/-- Outer `while shift <= len(text) - len(pattern)` loop of
`BoyerMooreMatcher.search` (boyer_moore.py lines 24-41); the Python comparison
is over ℤ, equivalently `shift + len(pattern) <= len(text)`.  The shift grows
by `max(1, j - last_occurrence)` ≥ 1 each iteration, so fuel `len(text) + 1`
dominates the iteration count. -/
def bmSearchLoop (t p : List Char) : Nat → Nat → List Nat → List Nat
  | 0, _, ms => ms
  | fuel + 1, shift, ms =>
    if shift + p.length ≤ t.length then
      match bmCheckFrom t p shift (p.length - 1) with
      | none => bmSearchLoop t p fuel (shift + 1) (ms ++ [shift])
      | some j =>
        let mismatchedChar := t.getD (shift + j) ' '
        let lastPos := lastOccurrenceOf p mismatchedChar
        bmSearchLoop t p fuel (shift + (max 1 ((j : Int) - lastPos)).toNat) ms
    else ms

/-- `BoyerMooreMatcher.search` (boyer_moore.py lines 10-43). -/
def bmSearch (text pat : List Char) : List Nat :=
  if pat = [] ∨ text = [] then []
  else bmSearchLoop (lowerStr text) (lowerStr pat) (text.length + 1) 0 []

/-! ### Aho-Corasick (src/algorithms/aho_corasick.py)

The pointer-based `TrieNode` graph is embedded as an arena: a list of nodes
addressed by index, the root at index 0.  `children` is an association list in
dict insertion order, `failure` is an optional node index (`None` on the root),
`output` is the list of patterns ending at (or reachable by failure links
from) the node. -/

structure ACNode where
  children : List (Char × Nat)
  failure : Option Nat
  output : List (List Char)
deriving Repr, DecidableEq, Inhabited

/-- Read a node of the arena (indices produced by the builder are in range). -/
def acGetNode (nodes : List ACNode) (i : Nat) : ACNode := nodes.getD i ⟨[], none, []⟩

/-- Write a node of the arena. -/
def acSetNode (nodes : List ACNode) (i : Nat) (v : ACNode) : List ACNode := nodes.set i v

/-- Lookup in a `children` dict (`char in node.children` / `node.children[char]`). -/
def childLookup : List (Char × Nat) → Char → Option Nat
  | [], _ => none
  | (a, v) :: rest, c => if a = c then some v else childLookup rest c

/-- Walk of `AhoCorasickMatcher._insert_pattern` (aho_corasick.py lines 31-38):
follow existing children, appending a fresh node when a child is missing.
Returns the new arena and the index of the pattern's final node. -/
def acInsertGo (nodes : List ACNode) (cur : Nat) : List Char → List ACNode × Nat
  | [] => (nodes, cur)
  | c :: rest =>
    match childLookup (acGetNode nodes cur).children c with
    | some nxt => acInsertGo nodes nxt rest
    | none =>
      let idx := nodes.length
      let curNode := acGetNode nodes cur
      let nodes1 := acSetNode nodes cur ⟨curNode.children ++ [(c, idx)], curNode.failure, curNode.output⟩
      let nodes2 := nodes1 ++ [⟨[], none, []⟩]
      acInsertGo nodes2 idx rest

/-- `AhoCorasickMatcher._insert_pattern`: walk the pattern, then
`node.output.append(pattern)`. -/
def acInsertPattern (nodes : List ACNode) (pat : List Char) : List ACNode :=
  let walked := acInsertGo nodes 0 pat
  let last := acGetNode walked.1 walked.2
  acSetNode walked.1 walked.2 ⟨last.children, last.failure, last.output ++ [pat]⟩

/-- Failure-link chase
(`while failure and char not in failure.children: failure = failure.failure`):
returns the exit value of the loop variable (`none`, or a node that has a
`c`-child).  The same loop also drives `AhoCorasickMatcher.search`.  Fuel
`nodes.length + 1` dominates the chase length because failure links strictly
decrease trie depth (proved for the automata built below). -/
def acFailChase (nodes : List ACNode) (c : Char) : Nat → Option Nat → Option Nat
  | 0, f => f
  | fuel + 1, f =>
    match f with
    | none => none
    | some g =>
      if (childLookup (acGetNode nodes g).children c).isSome then some g
      else acFailChase nodes c fuel (acGetNode nodes g).failure

/-- Body of the `for char, child in current.children.items()` loop of
`AhoCorasickMatcher._build_failure_links` (aho_corasick.py lines 53-67):
compute the child's failure link and extend its output with the failure
node's output. -/
def acProcessChild (nodes : List ACNode) (cur : Nat) (cn : Char × Nat) : List ACNode :=
  let f := acFailChase nodes cn.1 (nodes.length + 1) (acGetNode nodes cur).failure
  let target : Nat :=
    match f with
    | some g => (childLookup (acGetNode nodes g).children cn.1).getD 0
    | none => 0
  let childNode := acGetNode nodes cn.2
  acSetNode nodes cn.2
    ⟨childNode.children, some target, childNode.output ++ (acGetNode nodes target).output⟩

/-- BFS `while queue` loop of `_build_failure_links`.  Each tree node is
enqueued exactly once, so fuel `nodes.length` dominates the dequeue count. -/
def acBfsLoop : Nat → List ACNode → List Nat → List ACNode
  | 0, nodes, _ => nodes
  | _ + 1, nodes, [] => nodes
  | fuel + 1, nodes, cur :: rest =>
    let cs := (acGetNode nodes cur).children
    let nodes1 := cs.foldl (fun ns cn => acProcessChild ns cur cn) nodes
    acBfsLoop fuel nodes1 (rest ++ cs.map Prod.snd)

/-- `AhoCorasickMatcher._build_failure_links` (aho_corasick.py lines 40-67):
the root's children fail to the root and seed the queue, then the BFS runs. -/
def acBuildFailureLinks (nodes : List ACNode) : List ACNode :=
  let rootChildren := (acGetNode nodes 0).children
  let nodes1 := rootChildren.foldl
    (fun ns cn =>
      let child := acGetNode ns cn.2
      acSetNode ns cn.2 ⟨child.children, some 0, child.output⟩)
    nodes
  acBfsLoop nodes1.length nodes1 (rootChildren.map Prod.snd)

/-- `AhoCorasickMatcher.build_automaton` (aho_corasick.py lines 22-29); each
pattern is lower-cased before insertion. -/
def acBuildAutomaton (patterns : List (List Char)) : List ACNode :=
  let trie := patterns.foldl (fun ns pat => acInsertPattern ns (lowerStr pat)) [⟨[], none, []⟩]
  acBuildFailureLinks trie

/-- `matches[pattern].append(start_pos)` on the `defaultdict(list)` of
`AhoCorasickMatcher.search`, as an association list in first-touch order. -/
def acAddMatch (ms : List (List Char × List Nat)) (key : List Char) (pos : Nat) :
    List (List Char × List Nat) :=
  if ms.any (fun kv => decide (kv.1 = key)) then
    ms.map (fun kv => if kv.1 = key then (kv.1, kv.2 ++ [pos]) else kv)
  else ms ++ [(key, [pos])]

/-- One iteration of the `for i, char in enumerate(text)` loop of
`AhoCorasickMatcher.search` (aho_corasick.py lines 75-88).  The recorded
offset `i - len(pattern) + 1` is written in ℕ as `i + 1 - len(pattern)`,
which agrees with the Python value whenever the latter is nonnegative
(always the case for patterns reported by the correctness lemmas below;
for the empty pattern both equal `i + 1`). -/
def acSearchStep (nodes : List ACNode) (st : Nat × List (List Char × List Nat))
    (ic : Nat × Char) : Nat × List (List Char × List Nat) :=
  let found := acFailChase nodes ic.2 (nodes.length + 1) (some st.1)
  let node' : Nat :=
    match found with
    | some g => (childLookup (acGetNode nodes g).children ic.2).getD 0
    | none => 0
  let ms' := (acGetNode nodes node').output.foldl
    (fun acc pat => acAddMatch acc pat (ic.1 + 1 - pat.length)) st.2
  (node', ms')

/-- `AhoCorasickMatcher.search` (aho_corasick.py lines 69-90). -/
def acSearch (nodes : List ACNode) (text : List Char) : List (List Char × List Nat) :=
  ((lowerStr text).enum.foldl (acSearchStep nodes) (0, [])).2

/-- Read one pattern's occurrence list out of the search result
(dict access `search(text)[pattern]`, `[]` when the key is absent). -/
def lookupMatches (ms : List (List Char × List Nat)) (key : List Char) : List Nat :=
  match ms.find? (fun kv => decide (kv.1 = key)) with
  | some kv => kv.2
  | none => []

/-- Aho-Corasick restricted to a single pattern: build the automaton from the
singleton pattern set and read off that pattern's occurrences (the search dict
is keyed by the lower-cased pattern). -/
def acSearchOne (text pat : List Char) : List Nat :=
  lookupMatches (acSearch (acBuildAutomaton [pat]) text) (lowerStr pat)

/-! ### Fuzzy matcher (src/algorithms/fuzzy_matcher.py) -/

/-- Classic Levenshtein distance (unit-cost insertion, deletion,
substitution), the textbook recursion; used as the specification that
`FuzzyMatcher._edit_distance` is proved to compute. -/
def levClassic : List Char → List Char → Nat
  | [], b => b.length
  | x :: xs, [] => (x :: xs).length
  | x :: xs, y :: ys =>
    if x = y then levClassic xs ys
    else 1 + min (levClassic xs (y :: ys)) (min (levClassic (x :: xs) ys) (levClassic xs ys))
termination_by a b => a.length + b.length

/-- Inner `for j in range(1, n + 1)` loop of `FuzzyMatcher._edit_distance`:
computes the current row beyond column 0 from the previous row (`pj` walks
`dp[i-1][j]`, `diag` is `dp[i-1][j-1]`, `left` is `dp[i][j-1]`), comparing the
current `s1` character `c` against each `s2` character in order.  The
`1 + min (deletion) (min (insertion) (substitution))` shape mirrors the
source's `1 + min(dp[i-1][j], dp[i][j-1], dp[i-1][j-1])`. -/
def levRowStep (c : Char) : List Char → List Nat → Nat → Nat → List Nat
  | [], _, _, _ => []
  | _ :: _, [], _, _ => []
  | y :: ys, pj :: prest, diag, left =>
    let cur := if c = y then diag else 1 + min pj (min left diag)
    cur :: levRowStep c ys prest pj cur

/-- One outer iteration (`for i in range(1, m + 1)`) of
`FuzzyMatcher._edit_distance`: row `i` from row `i-1`; column 0 is the base
case `dp[i][0] = i = dp[i-1][0] + 1`.  The source keeps the full table but
row `i` only ever reads row `i-1` and the current row's prefix, so the
row-by-row computation produces exactly the source's rows. -/
def levNextRow (c : Char) (s2 : List Char) (prev : List Nat) : List Nat :=
  match prev with
  | [] => []
  | p0 :: prest => (p0 + 1) :: levRowStep c s2 prest p0 (p0 + 1)

/-- `FuzzyMatcher._edit_distance` (fuzzy_matcher.py lines 29-54): fill the DP
table row by row and return `dp[m][n]`. -/
def editDistance (s1 s2 : List Char) : Nat :=
  (s1.foldl (fun row c => levNextRow c s2 row) (List.range (s2.length + 1))).getLastD 0

/-- `FuzzyMatcher.similarity_ratio` (fuzzy_matcher.py lines 10-27); the name
carries a `Q` suffix because scores are modelled in ℚ.  `1 - distance/max_len`
is written with `mkRat` (equal to the division, see `Rat.mkRat_eq_div`). -/
def similarityRatioQ (s1 s2 : List Char) : ℚ :=
  if s1 = [] ∨ s2 = [] then 0
  else
    let a := lowerStr s1
    let b := lowerStr s2
    if a = b then 1
    else
      let distance := editDistance a b
      let maxLen := max a.length b.length
      if maxLen = 0 then 1 else 1 - mkRat distance maxLen

/-- Row `i` of the DP table of `FuzzyMatcher._edit_distance`, described
abstractly: the distances from a fixed prefix `u` of the first string to every
prefix of the second string.  Used to state the loop invariant of the row-wise
computation. -/
def rowSpec (u s2 : List Char) : List Nat :=
  (List.range (s2.length + 1)).map (fun j => levClassic u (s2.take j))

/-! ### Threshold policy and parameter validation
(src/core/search_engine.py lines 52-80, src/core/search_utils.py lines 125-145) -/

/-- Python `str.strip()`: drop whitespace from both ends. -/
def pyStrip (s : List Char) : List Char :=
  ((s.dropWhile Char.isWhitespace).reverse.dropWhile Char.isWhitespace).reverse

/-- `calculate_dynamic_threshold` (search_engine.py lines 52-80): a step
function of `len(search_term.strip())`. -/
def calculateDynamicThreshold (searchTerm : List Char) : ℚ :=
  let termLength := (pyStrip searchTerm).length
  if termLength ≤ 3 then 1
  else if termLength ≤ 5 then mkRat 95 100
  else if termLength ≤ 8 then mkRat 85 100
  else if termLength ≤ 12 then mkRat 8 10
  else mkRat 7 10

/-- Keyword normalization of `validate_search_params`
(`[str(kw).strip().lower() for kw in keywords if str(kw).strip()]`). -/
def validateKeywords (keywords : List (List Char)) : List (List Char) :=
  (keywords.filter (fun kw => !(pyStrip kw).isEmpty)).map (fun kw => lowerStr (pyStrip kw))

/-- The algorithm identifiers accepted by `validate_search_params`. -/
def validAlgorithms : List String := ["KMP", "BM", "AC"]

/-- `validate_search_params` (search_utils.py lines 125-145). -/
def validateSearchParams (keywords : List (List Char)) (algorithm : String)
    (maxResults : Int) (fuzzyThreshold : ℚ) : List (List Char) × String × Int × ℚ :=
  (validateKeywords keywords,
   if algorithm ∈ validAlgorithms then algorithm else "KMP",
   max 1 (min 1000 maxResults),
   max 0 (min 1 fuzzyThreshold))

/-- `calculate_optimal_chunk_size` (search_utils.py lines 148-160); the Python
arguments are nonnegative in every call, so ℕ is faithful. -/
def calculateOptimalChunkSize (totalItems numWorkers minChunkSize maxChunkSize : Nat) : Nat :=
  if totalItems = 0 ∨ numWorkers = 0 then minChunkSize
  else min (max minChunkSize (totalItems / numWorkers)) maxChunkSize

/-- `should_use_multiprocessing` (search_utils.py lines 163-170). -/
def shouldUseMultiprocessing (totalItems : Nat) (useMultiprocessing : Bool)
    (minThreshold : Nat) : Bool :=
  if !useMultiprocessing then false else decide (totalItems ≥ minThreshold)

/-! ### Search engine data model
(src/core/search_engine.py, src/core/search_workers.py, src/core/search_utils.py)

A corpus document is an applicant id plus its searchable text.  The text
assembly (`get_searchable_text`, built from profile/CV fields by external
collaborators) is opaque to the matching engine, so a document carries the
already-assembled text.  A result record mirrors the result dicts built by
`_perform_exact_matching` / `_perform_fuzzy_matching` (the opaque `applicant`
payload is represented by the id). -/

structure Applicant where
  detailId : Nat
  text : List Char
deriving Repr, DecidableEq

structure SearchResult where
  applicantId : Nat
  exactMatches : List (List Char × Nat)
  totalExactMatches : Nat
  fuzzyMatches : List (List Char × (List Char × ℚ))
  totalFuzzyMatches : Nat
  overallScore : ℚ
deriving Repr, DecidableEq

/-- Python dict membership test, for dicts modelled as association lists. -/
def assocHasKeyN {β : Type} (l : List (Nat × β)) (k : Nat) : Bool :=
  l.any (fun kv => decide (kv.1 = k))

/-- Python dict write `d[k] = v`: replace the existing entry in place, or
append a new entry (dicts preserve insertion order). -/
def assocSetN {β : Type} (l : List (Nat × β)) (k : Nat) (v : β) : List (Nat × β) :=
  if assocHasKeyN l k then l.map (fun kv => if kv.1 = k then (k, v) else kv)
  else l ++ [(k, v)]

/-- Python dict read `d.get(k)`. -/
def assocFindN {β : Type} (l : List (Nat × β)) (k : Nat) : Option β :=
  match l.find? (fun kv => decide (kv.1 = k)) with
  | some kv => some kv.2
  | none => none

/-- Dict write for dicts keyed by keywords. -/
def assocSetK {β : Type} (l : List (List Char × β)) (k : List Char) (v : β) :
    List (List Char × β) :=
  if l.any (fun kv => decide (kv.1 = k)) then l.map (fun kv => if kv.1 = k then (k, v) else kv)
  else l ++ [(k, v)]

/-- Dict read for dicts keyed by keywords. -/
def assocFindK {β : Type} (l : List (List Char × β)) (k : List Char) : Option β :=
  match l.find? (fun kv => decide (kv.1 = k)) with
  | some kv => some kv.2
  | none => none

/-- Algorithm dispatch of `_perform_exact_matching` for the per-keyword
matchers (search_engine.py lines 624-634): `"KMP"`, `"BM"`, anything else
defaults to KMP.  The `"AC"` branch is handled before this dispatch. -/
def searchWithAlgorithm (algorithm : String) (text kw : List Char) : List Nat :=
  if algorithm = "KMP" then kmpSearch text kw
  else if algorithm = "BM" then bmSearch text kw
  else kmpSearch text kw

/-- The `for keyword in keywords` accumulation of `_perform_exact_matching`
(search_engine.py lines 621-638): the `matches` dict and the running
`total_matches`. -/
def exactMatchCounts (algorithm : String) (searchableText : List Char)
    (keywords : List (List Char)) : List (List Char × Nat) × Nat :=
  keywords.foldl
    (fun acc kw =>
      let occurrences := searchWithAlgorithm algorithm searchableText kw
      if occurrences.isEmpty then acc
      else (assocSetK acc.1 kw occurrences.length, acc.2 + occurrences.length))
    ([], 0)

/-- Result record built for a document with exact matches
(search_engine.py lines 640-648): `overall_score = total_matches`. -/
def mkExactResult (id : Nat) (ms : List (List Char × Nat)) (total : Nat) : SearchResult :=
  ⟨id, ms, total, [], 0, (total : ℚ)⟩

/-- Per-document body of the KMP/BM branch of `_perform_exact_matching`
(search_engine.py lines 608-648): skip id 0, lower the searchable text, count
occurrences of every keyword, store a result when any keyword matched. -/
def exactDocStep (keywords : List (List Char)) (algorithm : String)
    (results : List (Nat × SearchResult)) (a : Applicant) : List (Nat × SearchResult) :=
  if a.detailId = 0 then results
  else
    let searchableText := lowerStr a.text
    let mc := exactMatchCounts algorithm searchableText keywords
    if mc.1.isEmpty then results
    else assocSetN results a.detailId (mkExactResult a.detailId mc.1 mc.2)

/-- Per-document body of `_aho_corasick_search` (search_engine.py lines
662-688): one automaton run, then counts per keyword
(`if keyword in pattern_matches and pattern_matches[keyword]`). -/
def acDocStep (auto : List ACNode) (keywords : List (List Char))
    (results : List (Nat × SearchResult)) (a : Applicant) : List (Nat × SearchResult) :=
  if a.detailId = 0 then results
  else
    let patternMatches := acSearch auto a.text
    let mc := keywords.foldl
      (fun (acc : List (List Char × Nat) × Nat) kw =>
        let occ := lookupMatches patternMatches kw
        if occ.isEmpty then acc
        else (assocSetK acc.1 kw occ.length, acc.2 + occ.length))
      ([], 0)
    if mc.1.isEmpty then results
    else assocSetN results a.detailId (mkExactResult a.detailId mc.1 mc.2)

/-- `_perform_exact_matching` (search_engine.py lines 599-650), including the
`_aho_corasick_search` branch (lines 652-690). -/
def performExactMatching (applicants : List Applicant) (keywords : List (List Char))
    (algorithm : String) : List (Nat × SearchResult) :=
  if algorithm = "AC" then
    if keywords.isEmpty then []
    else
      let auto := acBuildAutomaton keywords
      applicants.foldl (acDocStep auto keywords) []
  else applicants.foldl (exactDocStep keywords algorithm) []

/-- Python `str.split()` with no argument: split on runs of whitespace,
dropping empty pieces. -/
def splitWsGo : List Char → List Char → List (List Char)
  | [], acc => if acc.isEmpty then [] else [acc.reverse]
  | c :: rest, acc =>
    if c.isWhitespace then
      if acc.isEmpty then splitWsGo rest [] else acc.reverse :: splitWsGo rest []
    else splitWsGo rest (c :: acc)

/-- Python `text.split()`. -/
def splitWhitespace (s : List Char) : List (List Char) := splitWsGo s []

/-- Python `set(...)` over the split words, iterated in first-occurrence
order.  CPython's set iteration order is unspecified; the engine only ever
takes a strict maximum of similarity scores over the words, which is
order-independent, and the properties proved below do not depend on which
tied word is reported. -/
def dedupKeepFirst (ws : List (List Char)) : List (List Char) :=
  ws.foldl (fun acc w => if acc.any (fun x => decide (x = w)) then acc else acc ++ [w]) []

/-- The `for word in words` best-match scan of `_perform_fuzzy_matching`
(search_engine.py lines 727-739): keep the word with the highest similarity
that reaches the keyword's threshold (`similarity >= keyword_threshold and
similarity > best_similarity`). -/
def bestFuzzyMatch (kw : List Char) (keywordThreshold : ℚ) (words : List (List Char)) :
    Option (List Char × ℚ) :=
  let r := words.foldl
    (fun (best : Option (List Char) × ℚ) word =>
      let similarity := similarityRatioQ kw word
      if similarity ≥ keywordThreshold ∧ similarity > best.2 then (some word, similarity)
      else best)
    (none, 0)
  match r.1 with
  | some w => some (w, r.2)
  | none => none

/-- Per-document fuzzy scan (`for keyword in keywords_for_fuzzy`,
search_engine.py lines 721-755): accumulate the `fuzzy_matches` dict and the
`total_fuzzy_score`; `dynamic_thresholds.get(keyword, 0.7)`. -/
def fuzzyMatchDoc (keywordsForFuzzy : List (List Char))
    (dynamicThresholds : List (List Char × ℚ)) (a : Applicant) : Option SearchResult :=
  let words := dedupKeepFirst (splitWhitespace (lowerStr a.text))
  let res := keywordsForFuzzy.foldl
    (fun (acc : List (List Char × (List Char × ℚ)) × ℚ) kw =>
      let keywordThreshold := (assocFindK dynamicThresholds kw).getD (mkRat 7 10)
      match bestFuzzyMatch kw keywordThreshold words with
      | some ws => (assocSetK acc.1 kw ws, acc.2 + ws.2)
      | none => acc)
    ([], 0)
  if res.1.isEmpty then none
  else some ⟨a.detailId, [], 0, res.1, res.1.length, res.2⟩

/-- The set `keywords_with_exact_matches` (search_engine.py lines 699-702):
union of the exact-match keyword sets of all exact results, as a list with
first-occurrence order (only membership is ever used). -/
def keywordsWithExactMatches (exactResults : List (Nat × SearchResult)) : List (List Char) :=
  exactResults.foldl
    (fun acc kv =>
      kv.2.exactMatches.foldl
        (fun a2 km => if a2.any (fun x => decide (x = km.1)) then a2 else a2 ++ [km.1]) acc)
    []

/-- `keywords_for_fuzzy` (search_engine.py lines 704-705). -/
def keywordsForFuzzyOf (keywords : List (List Char))
    (exactResults : List (Nat × SearchResult)) : List (List Char) :=
  let kwsExact := keywordsWithExactMatches exactResults
  keywords.filter (fun kw => !(kwsExact.any (fun x => decide (x = kw))))

/-- `_perform_fuzzy_matching` (search_engine.py lines 692-757): fuzzy scan
only for keywords without exact matches, skipping documents that already have
an exact result (`applicant_id == 0 or applicant_id in exact_results`). -/
def performFuzzyMatching (applicants : List Applicant) (keywords : List (List Char))
    (dynamicThresholds : List (List Char × ℚ))
    (exactResults : List (Nat × SearchResult)) : List (Nat × SearchResult) :=
  let keywordsForFuzzy := keywordsForFuzzyOf keywords exactResults
  if keywordsForFuzzy.isEmpty then []
  else
    applicants.foldl
      (fun results a =>
        if a.detailId = 0 ∨ assocHasKeyN exactResults a.detailId then results
        else
          match fuzzyMatchDoc keywordsForFuzzy dynamicThresholds a with
          | some r => assocSetN results a.detailId r
          | none => results)
      []

/-- `dict.update` on a `fuzzy_matches` dict. -/
def dictUpdateFuzzy (base new : List (List Char × (List Char × ℚ))) :
    List (List Char × (List Char × ℚ)) :=
  new.foldl (fun acc kv => assocSetK acc kv.1 kv.2) base

/-- The `combined` dict of `combine_and_rank_results` (search_utils.py lines
98-116): copy the exact results, then merge each fuzzy result into an existing
entry (`dict.update` of the fuzzy matches, summed counters and scores) or
append it as a new fuzzy-only entry. -/
def combineResults (exactResults fuzzyResults : List (Nat × SearchResult)) :
    List (Nat × SearchResult) :=
  fuzzyResults.foldl
    (fun acc kv =>
      match assocFindN acc kv.1 with
      | some existing =>
        assocSetN acc kv.1
          ⟨existing.applicantId, existing.exactMatches, existing.totalExactMatches,
           dictUpdateFuzzy existing.fuzzyMatches kv.2.fuzzyMatches,
           existing.totalFuzzyMatches + kv.2.totalFuzzyMatches,
           existing.overallScore + kv.2.overallScore⟩
      | none => acc ++ [kv])
    exactResults

/-- `combine_and_rank_results` (search_utils.py lines 95-122): combine, then
stable-sort the values by `overall_score` descending (Python's
`list.sort(key=..., reverse=True)` is a stable descending sort, modelled by
insertion sort on the reversed order). -/
def combineAndRankResults (exactResults fuzzyResults : List (Nat × SearchResult)) :
    List SearchResult :=
  List.insertionSort (fun r1 r2 => r2.overallScore ≤ r1.overallScore)
    ((combineResults exactResults fuzzyResults).map Prod.snd)

/-- `SearchEngine._single_threaded_search` (search_engine.py lines 551-597):
exact phase, fuzzy phase, combine and rank, truncate to `max_results`. -/
def singleThreadedSearch (applicants : List Applicant) (keywords : List (List Char))
    (algorithm : String) (maxResults : Nat)
    (dynamicThresholds : List (List Char × ℚ)) : List SearchResult :=
  let exactResults := performExactMatching applicants keywords algorithm
  let fuzzyResults := performFuzzyMatching applicants keywords dynamicThresholds exactResults
  (combineAndRankResults exactResults fuzzyResults).take maxResults

/-! ### Multiprocessing model (src/core/search_engine.py lines 399-549,
src/core/search_workers.py)

The worker pool's availability is modelled by three boolean events: the probe
`_can_use_multiprocessing` (lines 809-821), an exception in the exact-phase
pool (lines 437-476), and an exception in the fuzzy-phase pool (lines
496-523).  Worker completion order (`as_completed`) only affects the order of
dict-union updates over chunks with pairwise disjoint key sets, so chunks are
merged in corpus order. -/

structure PoolStatus where
  probeOk : Bool
  exactPoolOk : Bool
  fuzzyPoolOk : Bool
deriving Repr, DecidableEq

/-- Contiguous chunking `chunks.append(applicant_dicts[i:i + chunk_size])`
(search_engine.py lines 419-421).  Fuel `l.length + 1` dominates the number
of slices for any positive chunk size. -/
def chunksOf : Nat → List Applicant → Nat → List (List Applicant)
  | 0, _, _ => []
  | _ + 1, [], _ => []
  | fuel + 1, l, size => l.take size :: chunksOf fuel (l.drop size) size

/-- `_process_chunk_exact` (search_workers.py lines 21-99): the worker
re-runs the same per-document matching as the engine's exact phase over its
chunk (the worker's `_get_searchable_text_worker` assembles the same
searchable text, which documents carry here). -/
def processChunkExact (chunk : List Applicant) (keywords : List (List Char))
    (algorithm : String) : List (Nat × SearchResult) :=
  performExactMatching chunk keywords algorithm

/-- Modelled from the spec: `_process_chunk_fuzzy_dynamic` is imported and
called by `SearchEngine._multiprocessing_search` (search_engine.py lines
19-23 and 499) but is absent from `core/search_workers.py`.  Following the
spec's fuzzy phase (per-keyword dynamic thresholds, sliding over one chunk)
and the sibling worker `_process_chunk_fuzzy` (search_workers.py lines
189-243), the worker scans every document of its chunk with the per-keyword
thresholds; its signature carries no exact-result set, so no document is
skipped. -/
def processChunkFuzzyDynamic (chunk : List Applicant) (keywords : List (List Char))
    (dynamicThresholds : List (List Char × ℚ)) : List (Nat × SearchResult) :=
  chunk.foldl
    (fun results a =>
      if a.detailId = 0 then results
      else
        match fuzzyMatchDoc keywords dynamicThresholds a with
        | some r => assocSetN results a.detailId r
        | none => results)
    []

/-- `exact_results.update(chunk_results)` merging with the early-stopping
check `len(exact_results) >= max_results * 3` after each merged chunk
(search_engine.py lines 444-464). -/
def mpExactLoop (maxResults : Nat) (keywords : List (List Char)) (algorithm : String) :
    List (List Applicant) → List (Nat × SearchResult) → List (Nat × SearchResult)
  | [], acc => acc
  | chunk :: rest, acc =>
    let acc1 := (processChunkExact chunk keywords algorithm).foldl
      (fun a kv => assocSetN a kv.1 kv.2) acc
    if acc1.length ≥ maxResults * 3 then acc1
    else mpExactLoop maxResults keywords algorithm rest acc1

/-- `SearchEngine._multiprocessing_search` (search_engine.py lines 399-549):
probe failure or an exact-phase pool exception falls back to
`_single_threaded_search`; a fuzzy-phase pool exception skips fuzzy matching
(lines 520-523) and keeps the exact results. -/
def multiprocessingSearch (pool : PoolStatus) (numWorkers : Nat)
    (applicants : List Applicant) (keywords : List (List Char)) (algorithm : String)
    (maxResults : Nat) (dynamicThresholds : List (List Char × ℚ)) : List SearchResult :=
  if !pool.probeOk then
    singleThreadedSearch applicants keywords algorithm maxResults dynamicThresholds
  else if !pool.exactPoolOk then
    singleThreadedSearch applicants keywords algorithm maxResults dynamicThresholds
  else
    let chunkSize := calculateOptimalChunkSize applicants.length numWorkers 5 100
    let chunks := chunksOf (applicants.length + 1) applicants chunkSize
    let exactResults := mpExactLoop maxResults keywords algorithm chunks []
    let keywordsForFuzzy := keywordsForFuzzyOf keywords exactResults
    let fuzzyResults :=
      if keywordsForFuzzy.isEmpty then []
      else if !pool.fuzzyPoolOk then []
      else
        chunks.foldl
          (fun acc chunk =>
            (processChunkFuzzyDynamic chunk keywordsForFuzzy dynamicThresholds).foldl
              (fun a kv => assocSetN a kv.1 kv.2) acc)
          []
    (combineAndRankResults exactResults fuzzyResults).take maxResults

/-- `SearchEngine.search` (search_engine.py lines 95-158): validate the
parameters, compute the per-keyword dynamic thresholds, return empty on an
empty keyword list or corpus, then dispatch on `should_use_multiprocessing`
(threshold 10).  The corpus stands in for `_load_applicant_data`. -/
def searchTop (applicants : List Applicant) (keywordsRaw : List (List Char))
    (algorithm : String) (maxResults : Int) (useMultiprocessing : Bool)
    (pool : PoolStatus) (numWorkers : Nat) : List SearchResult :=
  let v := validateSearchParams keywordsRaw algorithm maxResults (mkRat 7 10)
  let keywords := v.1
  let algorithm1 := v.2.1
  let maxResults1 := v.2.2.1
  let dynamicThresholds := keywords.map (fun kw => (kw, calculateDynamicThreshold kw))
  if keywords.isEmpty then []
  else if applicants.isEmpty then []
  else if shouldUseMultiprocessing applicants.length useMultiprocessing 10 then
    multiprocessingSearch pool numWorkers applicants keywords algorithm1
      maxResults1.toNat dynamicThresholds
  else
    singleThreadedSearch applicants keywords algorithm1 maxResults1.toNat dynamicThresholds

/-! ### Document-processing failures (claim C8)

Obtaining one document's searchable text may fail (the spec's
`DocumentProcessingError`, e.g. an encoding issue); the document then carries
`Except.error`.  `_perform_exact_matching` and `_perform_fuzzy_matching` have
no try/except, so the first failure propagates; `SearchEngine.search` catches
every exception and returns `_error_result` with empty results
(search_engine.py lines 156-158, 770-780), while the worker
`_process_chunk_exact` catches per chunk and returns `{}`
(search_workers.py lines 101-103). -/

structure ApplicantE where
  detailId : Nat
  text : Except Unit (List Char)

/-- Whether the document's text extraction succeeds. -/
def applicantOk (a : ApplicantE) : Bool :=
  match a.text with
  | .ok _ => true
  | .error _ => false

/-- The document with its extracted text (`[]` for a failed document; only
used where no document fails). -/
def unwrapApplicant (a : ApplicantE) : Applicant :=
  match a.text with
  | .ok t => ⟨a.detailId, t⟩
  | .error _ => ⟨a.detailId, []⟩

/-- A corpus of fallible documents, unwrapped. -/
def unwrapApplicants (l : List ApplicantE) : List Applicant := l.map unwrapApplicant

/-- `_perform_exact_matching` over fallible documents: no handler, the first
failing document aborts the phase. -/
def performExactMatchingE (applicants : List ApplicantE) (keywords : List (List Char))
    (algorithm : String) : Except Unit (List (Nat × SearchResult)) :=
  if algorithm = "AC" then
    if keywords.isEmpty then .ok []
    else
      let auto := acBuildAutomaton keywords
      applicants.foldlM
        (fun results a =>
          match a.text with
          | .error e => .error e
          | .ok txt => .ok (acDocStep auto keywords results ⟨a.detailId, txt⟩))
        []
  else
    applicants.foldlM
      (fun results a =>
        match a.text with
        | .error e => .error e
        | .ok txt => .ok (exactDocStep keywords algorithm results ⟨a.detailId, txt⟩))
      []

/-- `_perform_fuzzy_matching` over fallible documents: no handler either. -/
def performFuzzyMatchingE (applicants : List ApplicantE) (keywords : List (List Char))
    (dynamicThresholds : List (List Char × ℚ))
    (exactResults : List (Nat × SearchResult)) :
    Except Unit (List (Nat × SearchResult)) :=
  let keywordsForFuzzy := keywordsForFuzzyOf keywords exactResults
  if keywordsForFuzzy.isEmpty then .ok []
  else
    applicants.foldlM
      (fun results a =>
        match a.text with
        | .error e => .error e
        | .ok txt =>
          .ok (if a.detailId = 0 ∨ assocHasKeyN exactResults a.detailId then results
               else
                 match fuzzyMatchDoc keywordsForFuzzy dynamicThresholds ⟨a.detailId, txt⟩ with
                 | some r => assocSetN results a.detailId r
                 | none => results))
      []

/-- The single-threaded search over fallible documents, wrapped in the
catch-all of `SearchEngine.search`: any exception yields `_error_result`,
whose `results` list is empty; no exception reaches the caller. -/
def searchSingleThreadedE (applicants : List ApplicantE) (keywords : List (List Char))
    (algorithm : String) (maxResults : Nat)
    (dynamicThresholds : List (List Char × ℚ)) : List SearchResult :=
  let out : Except Unit (List SearchResult) := do
    let exactResults ← performExactMatchingE applicants keywords algorithm
    let fuzzyResults ← performFuzzyMatchingE applicants keywords dynamicThresholds exactResults
    pure ((combineAndRankResults exactResults fuzzyResults).take maxResults)
  match out with
  | .ok r => r
  | .error _ => []

/-- `_process_chunk_exact` over fallible documents: the worker's own handler
returns `{}` for the whole chunk on any failure. -/
def processChunkExactE (chunk : List ApplicantE) (keywords : List (List Char))
    (algorithm : String) : List (Nat × SearchResult) :=
  match performExactMatchingE chunk keywords algorithm with
  | .ok r => r
  | .error _ => []

/-! ### Concrete corpora used by the claim-level counterexamples -/

/-- A corpus of ten documents (the multiprocessing path needs at least ten):
document 1 contains the keyword `python` exactly and the word `javascripz`
(one edit from `javascript`), document 2 contains only `javascripz`, the rest
match nothing. -/
def exampleCorpus : List Applicant :=
  [⟨1, strL "python javascripz"⟩, ⟨2, strL "javascripz only"⟩] ++
    (List.range 8).map (fun n => ⟨n + 3, strL "nothing here"⟩)

/-- The two keywords of the example query. -/
def exampleKeywords : List (List Char) := [strL "python", strL "javascript"]

/-- Dynamic thresholds of the example query, as built by `SearchEngine.search`
(search_engine.py lines 115-118). -/
def exampleThresholds : List (List Char × ℚ) :=
  exampleKeywords.map (fun kw => (kw, calculateDynamicThreshold kw))

/-- A fallible corpus: document 2's text extraction fails, documents 1 and 3
contain the keyword `py`. -/
def exampleCorpusE : List ApplicantE :=
  [⟨1, .ok (strL "py here")⟩, ⟨2, .error ()⟩, ⟨3, .ok (strL "py too")⟩]

/-- The keyword of the fallible-corpus query. -/
def exampleKeywordsE : List (List Char) := [strL "py"]

/-- Dynamic thresholds of the fallible-corpus query. -/
def exampleThresholdsE : List (List Char × ℚ) :=
  exampleKeywordsE.map (fun kw => (kw, calculateDynamicThreshold kw))

/-- The descending-score order used by the ranking is total. -/
instance searchResultScoreTotal :
    IsTotal SearchResult (fun r1 r2 => r2.overallScore ≤ r1.overallScore) :=
  ⟨fun a b => le_total b.overallScore a.overallScore⟩

/-- The descending-score order used by the ranking is transitive. -/
instance searchResultScoreTrans :
    IsTrans SearchResult (fun r1 r2 => r2.overallScore ≤ r1.overallScore) :=
  ⟨fun _ _ _ h1 h2 => le_trans h2 h1⟩

/-! ### Specification-side definitions for the exact-matcher proofs
(borders of pattern prefixes, bounded occurrence lists, and the abstract shape
of the singleton-pattern Aho-Corasick automaton) -/

def maxBorder (s : List Char) : Nat :=
  Nat.findGreatest (fun k => s.take k <:+ s) (s.length - 1)

/-- Occurrences of `p` in `t` with offset below `bound`, in ascending order. -/
def occUpTo (t p : List Char) (bound : Nat) : List Nat :=
  (List.range (t.length + 1 - p.length)).filter
    (fun o => decide (p <+: t.drop o) && decide (o < bound))

def failSpec (p : List Char) : List Nat :=
  (List.range p.length).map (fun i => maxBorder (p.take (i + 1)))

def lastOccAux (p : List Char) (c : Char) (k : Nat) : Int :=
  (List.range k).foldl (fun acc i => if p.getD i ' ' = c then (i : Int) else acc) (-1)

def pathNode (p : List Char) (d : Nat) : ACNode := ⟨[(p.getD d ' ', d + 1)], none, []⟩

def partialArena (p : List Char) (d : Nat) : List ACNode :=
  (List.range d).map (pathNode p) ++ [⟨[], none, []⟩]

def trieOf (p : List Char) : List ACNode :=
  (List.range p.length).map (pathNode p) ++ [⟨[], none, [p]⟩]

def acNodeAt (p : List Char) (done : Nat) (e : Nat) : ACNode :=
  ⟨if e < p.length then [(p.getD e ' ', e + 1)] else [],
   if 1 ≤ e ∧ e ≤ done then some (maxBorder (p.take e)) else none,
   if e = p.length then [p] else []⟩

def bfsArena (p : List Char) (done : Nat) : List ACNode :=
  (List.range (p.length + 1)).map (acNodeAt p done)

def msSpec (p : List Char) (L : List Nat) : List (List Char × List Nat) :=
  if L = [] then [] else [(p, L)]

/-! ## Theorems -/

/-- C3: for any exact-result map and fuzzy-result map, the combined ranked
list is sorted by `overall_score` descending (any earlier result scores at
least any later one) and, truncated as in
`SearchEngine._single_threaded_search` / `_multiprocessing_search`
(`combined_results[:max_results]`), has at most `max_results` entries. -/
theorem ranked_results_sorted_truncated (exactResults fuzzyResults : List (Nat × SearchResult))
    (maxResults : Nat) :
    List.Pairwise (fun r1 r2 => r2.overallScore ≤ r1.overallScore)
      ((combineAndRankResults exactResults fuzzyResults).take maxResults) ∧
    ((combineAndRankResults exactResults fuzzyResults).take maxResults).length ≤ maxResults := by
  constructor
  · have hs : List.Sorted (fun r1 r2 => r2.overallScore ≤ r1.overallScore)
        (combineAndRankResults exactResults fuzzyResults) := by
      unfold combineAndRankResults
      exact List.sorted_insertionSort _ _
    exact List.Pairwise.sublist (List.take_sublist _ _) hs
  · exact List.length_take_le _ _

/-- C6 counterexample: the threshold is computed from the stripped length.
The keyword `"abc "` has length 4, for which the claimed step function gives
0.95, but the code strips the keyword first and returns 1.0. -/
theorem threshold_unstripped_counterexample :
    calculateDynamicThreshold (strL "abc ") = 1 ∧ (strL "abc ").length = 4 ∧
    (1 : ℚ) ≠ mkRat 95 100 := by
  refine ⟨by decide, by decide, by decide⟩

/-- C6 amended: the fuzzy threshold is the step function of the keyword's
stripped length (≤3 → 1.0, ≤5 → 0.95, ≤8 → 0.85, ≤12 → 0.80, else 0.70), and
for stripped lengths beyond 3 it is monotone non-increasing in the stripped
length. -/
theorem threshold_step_of_stripped_length (k1 k2 : List Char) :
    ((pyStrip k1).length ≤ 3 → calculateDynamicThreshold k1 = 1) ∧
    (3 < (pyStrip k1).length → (pyStrip k1).length ≤ 5 →
      calculateDynamicThreshold k1 = mkRat 95 100) ∧
    (5 < (pyStrip k1).length → (pyStrip k1).length ≤ 8 →
      calculateDynamicThreshold k1 = mkRat 85 100) ∧
    (8 < (pyStrip k1).length → (pyStrip k1).length ≤ 12 →
      calculateDynamicThreshold k1 = mkRat 8 10) ∧
    (12 < (pyStrip k1).length → calculateDynamicThreshold k1 = mkRat 7 10) ∧
    (3 < (pyStrip k1).length → (pyStrip k1).length ≤ (pyStrip k2).length →
      calculateDynamicThreshold k2 ≤ calculateDynamicThreshold k1) := by
  unfold calculateDynamicThreshold
  refine ⟨?_, ?_, ?_, ?_, ?_, ?_⟩ <;> intros <;> dsimp only <;> split_ifs <;>
    first | rfl | omega

/-- Witness for the C6 amended theorem at concrete keywords. -/
theorem threshold_step_witness :
    calculateDynamicThreshold (strL "abcd") = mkRat 95 100 ∧
    calculateDynamicThreshold (strL "abcdef") ≤ calculateDynamicThreshold (strL "abcd") :=
  ⟨(threshold_step_of_stripped_length (strL "abcd") (strL "abcd")).2.1 (by decide) (by decide),
   (threshold_step_of_stripped_length (strL "abcd") (strL "abcdef")).2.2.2.2.2
     (by decide) (by decide)⟩

/-- C7 counterexample: `validate_search_params` does not deduplicate: the
query `["ab", "ab"]` is returned with the keyword `"ab"` twice, so a distinct
pattern can be handed to the exact matchers more than once. -/
theorem validate_keeps_duplicates_counterexample :
    (validateSearchParams [strL "ab", strL "ab"] "KMP" 10 (mkRat 7 10)).1
      = [strL "ab", strL "ab"] ∧
    ¬ (validateSearchParams [strL "ab", strL "ab"] "KMP" 10 (mkRat 7 10)).1.Nodup := by
  refine ⟨by decide, by decide⟩

/-- Counting a value among mapped, filtered elements, used to show the
validated keyword list keeps multiplicities. -/
theorem count_filter_map_eq (kws : List (List Char)) (w : List Char) :
    ((kws.filter (fun k => !(pyStrip k).isEmpty)).map (fun k => lowerStr (pyStrip k))).count w
      = kws.countP (fun k => !(pyStrip k).isEmpty && decide (lowerStr (pyStrip k) = w)) := by
  induction kws with
  | nil => rfl
  | cons k rest ih =>
    by_cases h : (pyStrip k).isEmpty
    · simp [List.countP_cons, h, ih]
    · by_cases h2 : lowerStr (pyStrip k) = w
      · simp [List.countP_cons, h, h2, ih, List.count_cons]
      · simp [List.countP_cons, h, h2, ih, List.count_cons]

/-- C7 amended: each validated keyword is the lower-cased strip of some query
keyword, empty keywords are dropped and every surviving keyword is nonempty,
and multiplicities are preserved: duplicates are not removed (a keyword
repeated in the query is handed to the matchers once per repetition). -/
theorem validate_keywords_normalization (kws : List (List Char)) :
    (∀ w, w ∈ validateKeywords kws ↔
      ∃ k, k ∈ kws ∧ pyStrip k ≠ [] ∧ w = lowerStr (pyStrip k)) ∧
    (∀ w, (validateKeywords kws).count w
      = kws.countP (fun k => !(pyStrip k).isEmpty && decide (lowerStr (pyStrip k) = w))) ∧
    (validateKeywords kws).all (fun w => !w.isEmpty) = true := by
  refine ⟨?_, ?_, ?_⟩
  · intro w
    simp only [validateKeywords, List.mem_map, List.mem_filter]
    constructor
    · rintro ⟨k, ⟨hk, hne⟩, rfl⟩
      exact ⟨k, hk, by simpa using hne, rfl⟩
    · rintro ⟨k, hk, hne, rfl⟩
      exact ⟨k, ⟨hk, by simpa using hne⟩, rfl⟩
  · intro w
    exact count_filter_map_eq kws w
  · rw [List.all_eq_true]
    intro w hw
    simp only [validateKeywords, List.mem_map, List.mem_filter] at hw
    rcases hw with ⟨k, ⟨_, hne⟩, rfl⟩
    simpa [lowerStr] using hne

/-- Length bound of the single-threaded search. -/
theorem singleThreadedSearch_length_le (applicants : List Applicant)
    (keywords : List (List Char)) (algorithm : String) (maxResults : Nat)
    (dynamicThresholds : List (List Char × ℚ)) :
    (singleThreadedSearch applicants keywords algorithm maxResults dynamicThresholds).length
      ≤ maxResults := by
  unfold singleThreadedSearch
  exact List.length_take_le _ _

/-- Length bound of the multiprocessing search. -/
theorem multiprocessingSearch_length_le (pool : PoolStatus) (numWorkers : Nat)
    (applicants : List Applicant) (keywords : List (List Char)) (algorithm : String)
    (maxResults : Nat) (dynamicThresholds : List (List Char × ℚ)) :
    (multiprocessingSearch pool numWorkers applicants keywords algorithm maxResults
      dynamicThresholds).length ≤ maxResults := by
  unfold multiprocessingSearch
  dsimp only
  split_ifs <;>
    first
      | exact singleThreadedSearch_length_le _ _ _ _ _
      | exact List.length_take_le _ _

/-- C10: parameter validation returns one of the three algorithm identifiers
(anything else silently replaced by `"KMP"`) and clamps `max_results` into
`[1, 1000]`; consequently no search returns more than 1000 results, whatever
`max_results` the caller passes, and out-of-range values raise no error. -/
theorem validate_clamps_and_search_bounded (kws : List (List Char)) (alg : String)
    (mr : Int) (useMp : Bool) (pool : PoolStatus) (nw : Nat) (docs : List Applicant) :
    ((validateSearchParams kws alg mr (mkRat 7 10)).2.1 = "KMP" ∨
     (validateSearchParams kws alg mr (mkRat 7 10)).2.1 = "BM" ∨
     (validateSearchParams kws alg mr (mkRat 7 10)).2.1 = "AC") ∧
    ((validateSearchParams kws alg mr (mkRat 7 10)).2.1 = alg ∨
     (validateSearchParams kws alg mr (mkRat 7 10)).2.1 = "KMP") ∧
    1 ≤ (validateSearchParams kws alg mr (mkRat 7 10)).2.2.1 ∧
    (validateSearchParams kws alg mr (mkRat 7 10)).2.2.1 ≤ 1000 ∧
    (searchTop docs kws alg mr useMp pool nw).length ≤ 1000 := by
  refine ⟨?_, ?_, ?_, ?_, ?_⟩
  · by_cases h : alg ∈ validAlgorithms
    · simp only [validateSearchParams, if_pos h]
      simpa [validAlgorithms] using h
    · simp [validateSearchParams, if_neg h]
  · by_cases h : alg ∈ validAlgorithms
    · simp [validateSearchParams, if_pos h]
    · simp [validateSearchParams, if_neg h]
  · simp only [validateSearchParams]
    exact le_max_left _ _
  · simp only [validateSearchParams]
    exact max_le (by norm_num) (min_le_left _ _)
  · have hm : (max 1 (min 1000 mr)).toNat ≤ 1000 := by
      rw [Int.toNat_le]
      exact max_le (by norm_num) (min_le_left _ _)
    unfold searchTop
    dsimp only
    split_ifs
    · simp
    · simp
    · exact le_trans (multiprocessingSearch_length_le _ _ _ _ _ _ _) hm
    · exact le_trans (singleThreadedSearch_length_le _ _ _ _ _) hm

/-- An element of a dict after a write is an old element or the written pair. -/
theorem mem_assocSetN {β : Type} {l : List (Nat × β)} {k : Nat} {v : β} {kv : Nat × β}
    (h : kv ∈ assocSetN l k v) : kv ∈ l ∨ kv = (k, v) := by
  by_cases hc : assocHasKeyN l k
  · simp only [assocSetN, hc, if_pos] at h
    rcases List.mem_map.mp h with ⟨y, hy, rfl⟩
    by_cases hk : y.1 = k
    · right; simp [hk]
    · left; simpa [hk] using hy
  · simp only [assocSetN, hc] at h
    rcases List.mem_append.mp h with h1 | h1
    · exact Or.inl h1
    · exact Or.inr (by simpa using h1)

/-- A dict write leaves the key list unchanged, or appends the new key. -/
theorem assocSetN_map_fst {β : Type} (l : List (Nat × β)) (k : Nat) (v : β) :
    (assocSetN l k v).map Prod.fst
      = if assocHasKeyN l k then l.map Prod.fst else l.map Prod.fst ++ [k] := by
  by_cases hc : assocHasKeyN l k
  · simp only [assocSetN, hc, if_pos, List.map_map]
    refine List.map_congr_left ?_
    intro y _
    by_cases hk : y.1 = k <;> simp [hk]
  · simp [assocSetN, hc]

/-- Key membership is membership in the key list. -/
theorem assocHasKeyN_iff {β : Type} (l : List (Nat × β)) (k : Nat) :
    assocHasKeyN l k = true ↔ k ∈ l.map Prod.fst := by
  simp [assocHasKeyN, List.any_eq_true]

/-- Reading an absent key gives `none`. -/
theorem assocFindN_eq_none {β : Type} {l : List (Nat × β)} {k : Nat}
    (h : assocHasKeyN l k = false) : assocFindN l k = none := by
  unfold assocFindN
  have h2 : List.find? (fun kv => decide (kv.1 = k)) l = none := by
    rw [List.find?_eq_none]
    intro x hx
    simp only [decide_eq_true_eq]
    intro hk
    rw [← hk] at h
    simp only [assocHasKeyN, List.any_eq_false, decide_eq_true_eq] at h
    exact h x hx rfl
  rw [h2]

/-- When no fuzzy key is already present and the fuzzy keys are distinct, the
`combined` dict of `combine_and_rank_results` is literally the concatenation:
the merge branch never fires. -/
theorem combineResults_of_disjoint :
    ∀ (fz acc : List (Nat × SearchResult)),
      (∀ kv ∈ fz, assocHasKeyN acc kv.1 = false) → (fz.map Prod.fst).Nodup →
      combineResults acc fz = acc ++ fz := by
  intro fz
  induction fz with
  | nil => intro acc _ _; simp [combineResults]
  | cons kv rest ih =>
    intro acc hdisj hnodup
    have hk : assocHasKeyN acc kv.1 = false := hdisj kv (List.mem_cons_self _ _)
    have hfind : assocFindN acc kv.1 = none := assocFindN_eq_none hk
    have step : combineResults acc (kv :: rest) = combineResults (acc ++ [kv]) rest := by
      simp only [combineResults, List.foldl_cons, hfind]
    have hdisj2 : ∀ kv' ∈ rest, assocHasKeyN (acc ++ [kv]) kv'.1 = false := by
      intro kv' hkv'
      have h1 : assocHasKeyN acc kv'.1 = false := hdisj kv' (List.mem_cons_of_mem _ hkv')
      have h2 : kv.1 ≠ kv'.1 := by
        simp only [List.map_cons, List.nodup_cons] at hnodup
        intro he
        exact hnodup.1 (he ▸ List.mem_map_of_mem Prod.fst hkv')
      simp only [assocHasKeyN, List.any_append, List.any_cons, List.any_nil,
        Bool.or_eq_false_iff]
      refine ⟨by simpa [assocHasKeyN] using h1, by simp [h2]⟩
    have hnodup2 : (rest.map Prod.fst).Nodup := by
      simp only [List.map_cons, List.nodup_cons] at hnodup
      exact hnodup.2
    rw [step, ih (acc ++ [kv]) hdisj2 hnodup2]
    simp

/-- Fold-invariant helper: a per-document step that only ever keeps the dict
or writes a pair satisfying `P` preserves `P` over all entries. -/
theorem foldl_preserve {α : Type} (step : List (Nat × SearchResult) → α → List (Nat × SearchResult))
    (P : Nat × SearchResult → Prop)
    (hstep : ∀ acc a kv, (∀ kv' ∈ acc, P kv') → kv ∈ step acc a → P kv) :
    ∀ (l : List α) (acc), (∀ kv ∈ acc, P kv) → ∀ kv ∈ l.foldl step acc, P kv := by
  intro l
  induction l with
  | nil => intro acc hacc kv hkv; exact hacc kv hkv
  | cons a rest ih =>
    intro acc hacc kv hkv
    exact ih (step acc a) (fun kv' h' => hstep acc a kv' hacc h') kv hkv

/-- Entries written by the AC per-document step are exact-only. -/
theorem acDocStep_mem {auto : List ACNode} {keywords : List (List Char)}
    {acc : List (Nat × SearchResult)} {a : Applicant} {kv : Nat × SearchResult}
    (h : kv ∈ acDocStep auto keywords acc a) : kv ∈ acc ∨ kv.2.fuzzyMatches = [] := by
  unfold acDocStep at h
  dsimp only at h
  split_ifs at h
  · exact Or.inl h
  · exact Or.inl h
  · rcases mem_assocSetN h with h1 | h1
    · exact Or.inl h1
    · right; rw [h1]; rfl

/-- Entries written by the KMP/BM per-document step are exact-only. -/
theorem exactDocStep_mem {keywords : List (List Char)} {algorithm : String}
    {acc : List (Nat × SearchResult)} {a : Applicant} {kv : Nat × SearchResult}
    (h : kv ∈ exactDocStep keywords algorithm acc a) : kv ∈ acc ∨ kv.2.fuzzyMatches = [] := by
  unfold exactDocStep at h
  dsimp only at h
  split_ifs at h
  · exact Or.inl h
  · exact Or.inl h
  · rcases mem_assocSetN h with h1 | h1
    · exact Or.inl h1
    · right; rw [h1]; rfl

/-- Every exact-phase result has an empty fuzzy-match set (built as
`'fuzzy_matches': {}`). -/
theorem performExactMatching_fuzzyEmpty (applicants : List Applicant)
    (keywords : List (List Char)) (algorithm : String) :
    ∀ kv ∈ performExactMatching applicants keywords algorithm, kv.2.fuzzyMatches = [] := by
  unfold performExactMatching
  split_ifs
  · simp
  · refine foldl_preserve _ (fun kv => kv.2.fuzzyMatches = []) ?_ applicants [] (by simp)
    intro acc a kv hacc hkv
    rcases acDocStep_mem hkv with h | h
    · exact hacc kv h
    · exact h
  · refine foldl_preserve _ (fun kv => kv.2.fuzzyMatches = []) ?_ applicants [] (by simp)
    intro acc a kv hacc hkv
    rcases exactDocStep_mem hkv with h | h
    · exact hacc kv h
    · exact h

/-- A successful per-document fuzzy scan yields a fuzzy-only record. -/
theorem fuzzyMatchDoc_shape {keywords : List (List Char)} {thr : List (List Char × ℚ)}
    {a : Applicant} {r : SearchResult} (h : fuzzyMatchDoc keywords thr a = some r) :
    r.exactMatches = [] := by
  unfold fuzzyMatchDoc at h
  dsimp only at h
  split_ifs at h
  cases h
  rfl

/-- Invariant of the fuzzy-phase fold: entries are fuzzy-only, their document
has no exact result, and ids are pairwise distinct. -/
theorem fuzzy_fold_inv (kwsF : List (List Char)) (thr : List (List Char × ℚ))
    (exactResults : List (Nat × SearchResult)) :
    ∀ (l : List Applicant) (acc : List (Nat × SearchResult)),
      (∀ kv ∈ acc, kv.2.exactMatches = [] ∧ assocHasKeyN exactResults kv.1 = false) →
      (acc.map Prod.fst).Nodup →
      (∀ kv ∈ l.foldl (fun results a =>
          if a.detailId = 0 ∨ assocHasKeyN exactResults a.detailId then results
          else
            match fuzzyMatchDoc kwsF thr a with
            | some r => assocSetN results a.detailId r
            | none => results) acc,
        kv.2.exactMatches = [] ∧ assocHasKeyN exactResults kv.1 = false) ∧
      ((l.foldl (fun results a =>
          if a.detailId = 0 ∨ assocHasKeyN exactResults a.detailId then results
          else
            match fuzzyMatchDoc kwsF thr a with
            | some r => assocSetN results a.detailId r
            | none => results) acc).map Prod.fst).Nodup := by
  intro l
  induction l with
  | nil => intro acc h1 h2; exact ⟨h1, h2⟩
  | cons a rest ih =>
    intro acc h1 h2
    rw [List.foldl_cons]
    by_cases h0 : a.detailId = 0 ∨ assocHasKeyN exactResults a.detailId
    · rw [if_pos h0]
      exact ih acc h1 h2
    · rw [if_neg h0]
      cases hfd : fuzzyMatchDoc kwsF thr a with
      | none => exact ih acc h1 h2
      | some r =>
        refine ih _ ?_ ?_
        · intro kv hkv
          rcases mem_assocSetN hkv with h | h
          · exact h1 kv h
          · rw [h]
            refine ⟨fuzzyMatchDoc_shape hfd, ?_⟩
            simp only [not_or] at h0
            simpa using h0.2
        · rw [assocSetN_map_fst]
          split_ifs with hin
          · exact h2
          · refine List.Nodup.append h2 (by simp) ?_
            intro x hx1 hx2
            simp only [List.mem_singleton] at hx2
            subst hx2
            exact absurd ((assocHasKeyN_iff acc a.detailId).mpr hx1) (by simpa using hin)

/-- The fuzzy phase of the single-threaded search only produces fuzzy-only
records for documents without an exact result, with pairwise distinct ids. -/
theorem performFuzzyMatching_inv (applicants : List Applicant) (keywords : List (List Char))
    (thr : List (List Char × ℚ)) (exactResults : List (Nat × SearchResult)) :
    (∀ kv ∈ performFuzzyMatching applicants keywords thr exactResults,
      kv.2.exactMatches = [] ∧ assocHasKeyN exactResults kv.1 = false) ∧
    ((performFuzzyMatching applicants keywords thr exactResults).map Prod.fst).Nodup := by
  unfold performFuzzyMatching
  dsimp only
  split_ifs
  · simp
  · exact fuzzy_fold_inv _ thr exactResults applicants [] (by simp) (by simp)

/-- C4 amended: in the single-threaded search path the exact and fuzzy result
sets are disjoint by construction — the fuzzy phase runs only for keywords
without exact occurrences and skips documents with an exact result — so no
returned `DocumentResult` has both a non-empty exact match set and a
non-empty fuzzy match set. -/
theorem single_threaded_exact_fuzzy_disjoint (applicants : List Applicant)
    (keywords : List (List Char)) (algorithm : String) (maxResults : Nat)
    (thr : List (List Char × ℚ)) :
    (singleThreadedSearch applicants keywords algorithm maxResults thr).all
      (fun r => r.exactMatches.isEmpty || r.fuzzyMatches.isEmpty) = true := by
  rw [List.all_eq_true]
  intro r hr
  unfold singleThreadedSearch at hr
  dsimp only at hr
  set ex := performExactMatching applicants keywords algorithm with hex
  set fz := performFuzzyMatching applicants keywords thr ex with hfz
  have hr1 : r ∈ combineAndRankResults ex fz := List.take_subset _ _ hr
  have hinv := performFuzzyMatching_inv applicants keywords thr ex
  have hcomb : combineResults ex fz = ex ++ fz :=
    combineResults_of_disjoint fz ex (fun kv hkv => (hinv.1 kv hkv).2) hinv.2
  unfold combineAndRankResults at hr1
  have hr2 : r ∈ (combineResults ex fz).map Prod.snd :=
    (List.perm_insertionSort _ _).mem_iff.mp hr1
  rw [hcomb, List.map_append, List.mem_append] at hr2
  rcases hr2 with h | h
  · rcases List.mem_map.mp h with ⟨kv, hkv, rfl⟩
    have := performExactMatching_fuzzyEmpty applicants keywords algorithm kv hkv
    simp [this]
  · rcases List.mem_map.mp h with ⟨kv, hkv, rfl⟩
    have := (hinv.1 kv hkv).1
    simp [this]

/-- The exact phase over fallible documents: identical to the phase over the
extracted texts when every document processes, first failure aborts
otherwise (except for the degenerate `"AC"`-with-no-keywords branch, which
never touches a document). -/
theorem foldlM_applicantE (step : List (Nat × SearchResult) → Applicant → List (Nat × SearchResult)) :
    ∀ (docs : List ApplicantE) (acc : List (Nat × SearchResult)),
      (docs.foldlM (fun results a =>
          match a.text with
          | .error e => .error e
          | .ok txt => .ok (step results ⟨a.detailId, txt⟩)) acc
        : Except Unit (List (Nat × SearchResult)))
        = if docs.all applicantOk then .ok ((unwrapApplicants docs).foldl step acc)
          else .error () := by
  intro docs
  induction docs with
  | nil => intro acc; rfl
  | cons a rest ih =>
    intro acc
    cases ha : a.text with
    | error e =>
      have hok : applicantOk a = false := by unfold applicantOk; rw [ha]
      simp only [List.foldlM_cons, ha, List.all_cons, hok, Bool.false_and, if_false]
      rfl
    | ok txt =>
      have hok : applicantOk a = true := by unfold applicantOk; rw [ha]
      have hu : unwrapApplicant a = ⟨a.detailId, txt⟩ := by unfold unwrapApplicant; rw [ha]
      simp only [List.foldlM_cons, ha, List.all_cons, hok, Bool.true_and]
      rw [show ((Except.ok (step acc ⟨a.detailId, txt⟩) : Except Unit _) >>= fun acc' =>
            rest.foldlM (fun results a =>
              match a.text with
              | .error e => .error e
              | .ok txt => .ok (step results ⟨a.detailId, txt⟩)) acc')
          = rest.foldlM (fun results a =>
              match a.text with
              | .error e => .error e
              | .ok txt => .ok (step results ⟨a.detailId, txt⟩))
              (step acc ⟨a.detailId, txt⟩) from rfl]
      rw [ih]
      unfold unwrapApplicants
      rw [List.map_cons, List.foldl_cons, hu]

/-- `_perform_exact_matching` over fallible documents, characterized. -/
theorem performExactMatchingE_eq (docs : List ApplicantE) (keywords : List (List Char))
    (algorithm : String) :
    performExactMatchingE docs keywords algorithm
      = if docs.all applicantOk then
          .ok (performExactMatching (unwrapApplicants docs) keywords algorithm)
        else if algorithm = "AC" ∧ keywords.isEmpty then .ok [] else .error () := by
  by_cases hall : docs.all applicantOk
  · rw [if_pos hall]
    by_cases hac : algorithm = "AC"
    · by_cases hkw : keywords.isEmpty
      · unfold performExactMatchingE performExactMatching
        rw [if_pos hac, if_pos hkw, if_pos hac, if_pos hkw]
      · unfold performExactMatchingE performExactMatching
        rw [if_pos hac, if_neg hkw, if_pos hac, if_neg hkw]
        dsimp only
        rw [foldlM_applicantE (acDocStep (acBuildAutomaton keywords) keywords) docs [],
          if_pos hall]
    · unfold performExactMatchingE performExactMatching
      rw [if_neg hac, if_neg hac]
      rw [foldlM_applicantE (exactDocStep keywords algorithm) docs [], if_pos hall]
  · rw [if_neg hall]
    by_cases hac : algorithm = "AC"
    · by_cases hkw : keywords.isEmpty
      · rw [if_pos (⟨hac, hkw⟩ : algorithm = "AC" ∧ keywords.isEmpty)]
        unfold performExactMatchingE
        rw [if_pos hac, if_pos hkw]
      · rw [if_neg (show ¬(algorithm = "AC" ∧ keywords.isEmpty) from
          fun hcon => hkw hcon.2)]
        unfold performExactMatchingE
        rw [if_pos hac, if_neg hkw]
        dsimp only
        rw [foldlM_applicantE (acDocStep (acBuildAutomaton keywords) keywords) docs [],
          if_neg hall]
    · rw [if_neg (show ¬(algorithm = "AC" ∧ keywords.isEmpty) from
        fun hcon => hac hcon.1)]
      unfold performExactMatchingE
      rw [if_neg hac]
      rw [foldlM_applicantE (exactDocStep keywords algorithm) docs [], if_neg hall]

/-- `_perform_fuzzy_matching` over fallible documents, characterized. -/
theorem performFuzzyMatchingE_eq (docs : List ApplicantE) (keywords : List (List Char))
    (thr : List (List Char × ℚ)) (exactResults : List (Nat × SearchResult)) :
    performFuzzyMatchingE docs keywords thr exactResults
      = if (keywordsForFuzzyOf keywords exactResults).isEmpty then .ok []
        else if docs.all applicantOk then
          .ok (performFuzzyMatching (unwrapApplicants docs) keywords thr exactResults)
        else .error () := by
  unfold performFuzzyMatchingE performFuzzyMatching
  dsimp only
  split_ifs with h1 h2
  · rfl
  · rw [foldlM_applicantE
      (fun results a =>
        if a.detailId = 0 ∨ assocHasKeyN exactResults a.detailId then results
        else
          match fuzzyMatchDoc (keywordsForFuzzyOf keywords exactResults) thr a with
          | some r => assocSetN results a.detailId r
          | none => results) docs []]
    rw [if_pos h2]
  · rw [foldlM_applicantE
      (fun results a =>
        if a.detailId = 0 ∨ assocHasKeyN exactResults a.detailId then results
        else
          match fuzzyMatchDoc (keywordsForFuzzyOf keywords exactResults) thr a with
          | some r => assocSetN results a.detailId r
          | none => results) docs []]
    rw [if_neg h2]

/-- The `do`-block of the fallible single-threaded search, as nested matches. -/
theorem searchSingleThreadedE_eq (docs : List ApplicantE) (keywords : List (List Char))
    (algorithm : String) (maxResults : Nat) (thr : List (List Char × ℚ)) :
    searchSingleThreadedE docs keywords algorithm maxResults thr
      = match performExactMatchingE docs keywords algorithm with
        | .error _ => []
        | .ok ex =>
          match performFuzzyMatchingE docs keywords thr ex with
          | .error _ => []
          | .ok fz => (combineAndRankResults ex fz).take maxResults := by
  unfold searchSingleThreadedE
  cases performExactMatchingE docs keywords algorithm with
  | error e => rfl
  | ok ex =>
    show (match (performFuzzyMatchingE docs keywords thr ex >>= fun fuzzyResults =>
          pure ((combineAndRankResults ex fuzzyResults).take maxResults) :
            Except Unit (List SearchResult)) with
        | Except.ok r => r
        | Except.error _ => []) =
      (match performFuzzyMatchingE docs keywords thr ex with
        | Except.error _ => []
        | Except.ok fz => (combineAndRankResults ex fz).take maxResults)
    cases performFuzzyMatchingE docs keywords thr ex with
    | error e => rfl
    | ok fz => rfl

/-- C8 amended: a document whose text processing fails is not skipped
individually.  In the single-threaded path the failure propagates to the
catch-all of `SearchEngine.search`, which aborts the whole scan and returns
an empty error result (never an exception); in the worker path
`_process_chunk_exact` catches per chunk and drops the whole chunk's results.
When no document fails, both paths compute the ordinary results. -/
theorem search_failure_handling (docs : List ApplicantE) (keywords : List (List Char))
    (algorithm : String) (maxResults : Nat) (thr : List (List Char × ℚ)) :
    (searchSingleThreadedE docs keywords algorithm maxResults thr
      = if docs.all applicantOk then
          singleThreadedSearch (unwrapApplicants docs) keywords algorithm maxResults thr
        else []) ∧
    (processChunkExactE docs keywords algorithm
      = if docs.all applicantOk then
          performExactMatching (unwrapApplicants docs) keywords algorithm
        else []) := by
  constructor
  · rw [searchSingleThreadedE_eq, performExactMatchingE_eq]
    by_cases hall : docs.all applicantOk
    · rw [if_pos hall, if_pos hall]
      dsimp only
      rw [performFuzzyMatchingE_eq]
      by_cases hkf : (keywordsForFuzzyOf keywords
          (performExactMatching (unwrapApplicants docs) keywords algorithm)).isEmpty
      · rw [if_pos hkf]
        dsimp only
        unfold singleThreadedSearch performFuzzyMatching
        dsimp only
        rw [if_pos hkf]
      · rw [if_neg hkf, if_pos hall]
        dsimp only
        unfold singleThreadedSearch
        rfl
    · rw [if_neg hall, if_neg hall]
      by_cases hd : algorithm = "AC" ∧ keywords.isEmpty
      · rw [if_pos hd]
        dsimp only
        have hk0 : keywords = [] := List.isEmpty_iff.mp hd.2
        subst hk0
        rw [performFuzzyMatchingE_eq]
        rw [if_pos (show (keywordsForFuzzyOf [] []).isEmpty from rfl)]
        dsimp only
        simp [combineAndRankResults, combineResults]
      · rw [if_neg hd]
  · unfold processChunkExactE
    rw [performExactMatchingE_eq]
    by_cases hall : docs.all applicantOk
    · rw [if_pos hall, if_pos hall]
    · rw [if_neg hall, if_neg hall]
      by_cases hd : algorithm = "AC" ∧ keywords.isEmpty
      · rw [if_pos hd]
      · rw [if_neg hd]

/-- C9 amended: a probe failure or an exact-phase pool failure makes the
multiprocessing search return exactly the single-threaded search's results
(the fallback literally runs the single-threaded path); no search fails
because parallelism is unavailable. -/
theorem pool_unavailable_falls_back (e f : Bool) (numWorkers : Nat)
    (applicants : List Applicant) (keywords : List (List Char)) (algorithm : String)
    (maxResults : Nat) (thr : List (List Char × ℚ)) :
    multiprocessingSearch ⟨false, e, f⟩ numWorkers applicants keywords algorithm maxResults thr
      = singleThreadedSearch applicants keywords algorithm maxResults thr ∧
    multiprocessingSearch ⟨true, false, f⟩ numWorkers applicants keywords algorithm maxResults thr
      = singleThreadedSearch applicants keywords algorithm maxResults thr := by
  constructor <;> rfl

set_option maxRecDepth 100000 in
/-- C4 counterexample: in the multiprocessing path the fuzzy workers receive
only a chunk and the fuzzy keyword list, not the exact results, so a document
that already has an exact match gains fuzzy matches too, and
`combine_and_rank_results` merges them: on the example corpus the output
contains a result with both a non-empty exact match set and a non-empty
fuzzy match set. -/
theorem mp_search_mixed_result_counterexample :
    (multiprocessingSearch ⟨true, true, true⟩ 2 exampleCorpus exampleKeywords "KMP" 10
      exampleThresholds).any
      (fun r => !r.exactMatches.isEmpty && !r.fuzzyMatches.isEmpty) = true := by
  with_unfolding_all rfl

/-- C5 counterexample: `similarity_ratio("", "")` returns 0.0, although the
empty string equals itself case-insensitively, so the result is not 1.0. -/
theorem similarity_empty_equal_counterexample :
    similarityRatioQ [] [] = 0 ∧ lowerStr ([] : List Char) = lowerStr [] ∧ (0 : ℚ) ≠ 1 :=
  ⟨rfl, rfl, by norm_num⟩

set_option maxRecDepth 100000 in
/-- C8 counterexample: with documents 1 and 3 matching the keyword and
document 2 failing, the whole search returns the empty error result instead
of excluding only document 2: the same search on the corpus without the
failing document is non-empty. -/
theorem failing_document_aborts_search_counterexample :
    searchSingleThreadedE exampleCorpusE exampleKeywordsE "KMP" 10 exampleThresholdsE = [] ∧
    singleThreadedSearch [⟨1, strL "py here"⟩, ⟨3, strL "py too"⟩] exampleKeywordsE "KMP" 10
      exampleThresholdsE ≠ [] := by
  constructor
  · with_unfolding_all rfl
  · exact of_decide_eq_true (by with_unfolding_all rfl)

set_option maxRecDepth 100000 in
/-- C9 counterexample: when the worker pool fails in the fuzzy phase, the
multiprocessing search skips fuzzy matching instead of falling back, so its
results differ from the single-threaded path's on the example corpus (the
single-threaded path also returns the fuzzy-only document 2). -/
theorem fuzzy_pool_failure_not_identical_counterexample :
    multiprocessingSearch ⟨true, true, false⟩ 2 exampleCorpus exampleKeywords "KMP" 10
        exampleThresholds
      ≠ singleThreadedSearch exampleCorpus exampleKeywords "KMP" 10 exampleThresholds :=
  of_decide_eq_true (by with_unfolding_all rfl)

/-! ### Edit-distance correctness and the similarity ratio (claim C5) -/

theorem levClassic_nil_left (b : List Char) : levClassic [] b = b.length := by
  simp [levClassic]

theorem levClassic_nil_right (a : List Char) : levClassic a [] = a.length := by
  cases a with
  | nil => simp [levClassic]
  | cons x xs => simp [levClassic]

theorem levClassic_cons_cons (x y : Char) (xs ys : List Char) :
    levClassic (x :: xs) (y :: ys)
      = if x = y then levClassic xs ys
        else 1 + min (levClassic xs (y :: ys)) (min (levClassic (x :: xs) ys) (levClassic xs ys)) := by
  rw [levClassic]

set_option maxHeartbeats 1000000 in
theorem levClassic_snoc (c d : Char) :
    ∀ (n : Nat) (u v : List Char), u.length + v.length ≤ n →
      levClassic (u ++ [c]) (v ++ [d])
        = if c = d then levClassic u v
          else 1 + min (levClassic u (v ++ [d]))
              (min (levClassic (u ++ [c]) v) (levClassic u v)) := by
  intro n
  induction n with
  | zero =>
    intro u v hle
    have hu : u = [] := by cases u <;> simp_all
    have hv : v = [] := by cases v <;> simp_all
    subst hu; subst hv
    simp only [List.nil_append]
    rw [levClassic_cons_cons c d [] []]
  | succ n ih =>
    intro u v hle
    cases u with
    | nil =>
      cases v with
      | nil =>
        simp only [List.nil_append]
        rw [levClassic_cons_cons c d [] []]
      | cons y v' =>
        have ih1 := ih [] v' (by simp at hle ⊢; omega)
        simp only [List.nil_append, List.cons_append] at ih1 ⊢
        rw [levClassic_cons_cons c y [] (v' ++ [d]), levClassic_cons_cons c y [] v', ih1]
        simp only [levClassic_nil_left, levClassic_nil_right, List.length_append,
          List.length_cons, List.length_nil]
        split_ifs <;> omega
    | cons x u' =>
      cases v with
      | nil =>
        have ih1 := ih u' [] (by simp at hle ⊢; omega)
        simp only [List.nil_append, List.cons_append] at ih1 ⊢
        rw [levClassic_cons_cons x d (u' ++ [c]) [], levClassic_cons_cons x d u' [], ih1]
        simp only [levClassic_nil_left, levClassic_nil_right, List.length_append,
          List.length_cons, List.length_nil]
        split_ifs <;> omega
      | cons y v' =>
        have ih1 := ih u' v' (by simp at hle ⊢; omega)
        have ih2 := ih u' (y :: v') (by simp at hle ⊢; omega)
        have ih3 := ih (x :: u') v' (by simp at hle ⊢; omega)
        simp only [List.cons_append] at ih2 ih3 ⊢
        rw [levClassic_cons_cons x y (u' ++ [c]) (v' ++ [d])]
        rw [levClassic_cons_cons x y u' v']
        rw [levClassic_cons_cons x y u' (v' ++ [d])]
        rw [levClassic_cons_cons x y (u' ++ [c]) v']
        rw [ih1]
        rw [ih2]
        rw [ih3]
        generalize levClassic u' (y :: (v' ++ [d])) = a1
        generalize levClassic (u' ++ [c]) (y :: v') = a2
        generalize levClassic u' (y :: v') = a3
        generalize levClassic (x :: u') (v' ++ [d]) = a4
        generalize levClassic (x :: (u' ++ [c])) v' = a5
        generalize levClassic (x :: u') v' = a6
        generalize levClassic u' (v' ++ [d]) = a7
        generalize levClassic (u' ++ [c]) v' = a8
        generalize levClassic u' v' = a9
        clear ih ih1 ih2 ih3 hle
        split_ifs <;>
          first
            | rfl
            | (simp only [Nat.one_add, Nat.succ_min_succ]
               simp only [min_assoc]
               simp only [min_comm, min_left_comm])

theorem levClassic_snoc' (c d : Char) (u v : List Char) :
    levClassic (u ++ [c]) (v ++ [d])
      = if c = d then levClassic u v
        else 1 + min (levClassic u (v ++ [d]))
            (min (levClassic (u ++ [c]) v) (levClassic u v)) :=
  levClassic_snoc c d (u.length + v.length) u v le_rfl

theorem levRowStep_spec (c : Char) (u : List Char) :
    ∀ (ys v : List Char),
      levRowStep c ys ((List.range ys.length).map
          (fun j => levClassic u (v ++ ys.take (j + 1))))
        (levClassic u v) (levClassic (u ++ [c]) v)
      = (List.range ys.length).map (fun j => levClassic (u ++ [c]) (v ++ ys.take (j + 1))) := by
  intro ys
  induction ys with
  | nil => intro v; rfl
  | cons y ys' ih =>
    intro v
    have hre : List.range (y :: ys').length = 0 :: (List.range ys'.length).map Nat.succ := by
      rw [List.length_cons, List.range_succ_eq_map]
    have hsucc : ∀ (w : List Char) (j : Nat),
        w ++ (y :: ys').take (Nat.succ j + 1) = (w ++ [y]) ++ ys'.take (j + 1) := by
      intro w j
      rw [List.take_succ_cons, List.append_cons]
    have h0 : ∀ w : List Char, w ++ (y :: ys').take (0 + 1) = w ++ [y] := by
      intro w
      simp
    rw [hre, List.map_cons, List.map_cons, List.map_map, List.map_map]
    have hmapL : (List.range ys'.length).map
          ((fun j => levClassic u (v ++ (y :: ys').take (j + 1))) ∘ Nat.succ)
        = (List.range ys'.length).map
          (fun j => levClassic u ((v ++ [y]) ++ ys'.take (j + 1))) := by
      refine List.map_congr_left ?_
      intro j _
      show levClassic u (v ++ (y :: ys').take (Nat.succ j + 1)) = _
      rw [hsucc v j]
    have hmapR : (List.range ys'.length).map
          ((fun j => levClassic (u ++ [c]) (v ++ (y :: ys').take (j + 1))) ∘ Nat.succ)
        = (List.range ys'.length).map
          (fun j => levClassic (u ++ [c]) ((v ++ [y]) ++ ys'.take (j + 1))) := by
      refine List.map_congr_left ?_
      intro j _
      show levClassic (u ++ [c]) (v ++ (y :: ys').take (Nat.succ j + 1)) = _
      rw [hsucc v j]
    rw [hmapL, hmapR, h0 v]
    simp only [levRowStep]
    have hcur : (if c = y then levClassic u v
        else 1 + min (levClassic u (v ++ [y]))
            (min (levClassic (u ++ [c]) v) (levClassic u v)))
        = levClassic (u ++ [c]) (v ++ [y]) := (levClassic_snoc' c y u v).symm
    rw [hcur]
    congr 1
    exact ih (v ++ [y])

theorem levNextRow_spec (c : Char) (u s2 : List Char) :
    levNextRow c s2 (rowSpec u s2) = rowSpec (u ++ [c]) s2 := by
  unfold rowSpec
  rw [List.range_succ_eq_map, List.map_cons, List.map_cons, List.map_map, List.map_map]
  simp only [List.take_zero]
  have hL : (List.range s2.length).map
        ((fun j => levClassic u (s2.take j)) ∘ Nat.succ)
      = (List.range s2.length).map (fun j => levClassic u ([] ++ s2.take (j + 1))) := by
    refine List.map_congr_left ?_
    intro j _
    simp
  have hR : (List.range s2.length).map
        ((fun j => levClassic (u ++ [c]) (s2.take j)) ∘ Nat.succ)
      = (List.range s2.length).map
        (fun j => levClassic (u ++ [c]) ([] ++ s2.take (j + 1))) := by
    refine List.map_congr_left ?_
    intro j _
    simp
  have hred : ∀ (p0 : Nat) (t : List Nat),
      levNextRow c s2 (p0 :: t) = (p0 + 1) :: levRowStep c s2 t p0 (p0 + 1) := by
    intro p0 t
    rfl
  have h1 : levClassic u [] + 1 = levClassic (u ++ [c]) [] := by
    rw [levClassic_nil_right, levClassic_nil_right, List.length_append]
    simp
  rw [hL, hR, hred, h1, levRowStep_spec c u s2 []]

theorem rowSpec_foldl (s2 : List Char) :
    ∀ (l u : List Char),
      l.foldl (fun row c => levNextRow c s2 row) (rowSpec u s2) = rowSpec (u ++ l) s2 := by
  intro l
  induction l with
  | nil => intro u; simp
  | cons c rest ih =>
    intro u
    rw [List.foldl_cons, levNextRow_spec, ih (u ++ [c])]
    simp

theorem editDistance_eq_levClassic (s1 s2 : List Char) :
    editDistance s1 s2 = levClassic s1 s2 := by
  unfold editDistance
  have h0 : List.range (s2.length + 1) = rowSpec [] s2 := by
    unfold rowSpec
    refine ((List.map_id (List.range (s2.length + 1))).symm.trans ?_)
    refine List.map_congr_left ?_
    intro j hj
    rw [List.mem_range] at hj
    rw [levClassic_nil_left, List.length_take]
    simp
    omega
  rw [h0, rowSpec_foldl s2 s1 [], List.nil_append]
  unfold rowSpec
  rw [List.range_succ, List.map_append, List.map_cons, List.map_nil]
  rw [List.take_length]
  rw [List.getLastD_concat]

theorem lowerStr_length (s : List Char) : (lowerStr s).length = s.length :=
  List.length_map _ _

theorem levClassic_le_max :
    ∀ (n : Nat) (a b : List Char), a.length + b.length ≤ n →
      levClassic a b ≤ max a.length b.length := by
  intro n
  induction n with
  | zero =>
    intro a b hle
    have ha : a = [] := by cases a <;> simp_all
    have hb : b = [] := by cases b <;> simp_all
    subst ha; subst hb
    simp [levClassic_nil_left]
  | succ n ih =>
    intro a b hle
    cases a with
    | nil => simp [levClassic_nil_left]
    | cons x xs =>
      cases b with
      | nil => simp [levClassic_nil_right]
      | cons y ys =>
        rw [levClassic_cons_cons]
        have h1 := ih xs ys (by simp at hle ⊢; omega)
        split_ifs with hxy
        · generalize levClassic xs ys = a3 at h1 ⊢
          simp only [List.length_cons] at h1 ⊢
          clear ih hle
          omega
        · generalize levClassic xs (y :: ys) = a1
          generalize levClassic (x :: xs) ys = a2
          generalize levClassic xs ys = a3 at h1 ⊢
          simp only [List.length_cons] at h1 ⊢
          clear ih hle
          omega

theorem similarityRatioQ_of_ne (s1 s2 : List Char) (h : lowerStr s1 ≠ lowerStr s2) :
    similarityRatioQ s1 s2
      = 1 - (levClassic (lowerStr s1) (lowerStr s2) : ℚ) / (max s1.length s2.length : ℚ) := by
  unfold similarityRatioQ
  by_cases h1 : s1 = [] ∨ s2 = []
  · rw [if_pos h1]
    rcases h1 with h1 | h1
    · subst h1
      have hs2 : s2 ≠ [] := by
        intro hs
        subst hs
        exact h rfl
      have hpos : s2.length ≠ 0 := fun hh => hs2 (List.length_eq_zero.mp hh)
      rw [show lowerStr ([] : List Char) = [] from rfl]
      rw [levClassic_nil_left, lowerStr_length]
      have hmaxeq : ((([] : List Char).length : ℚ) ⊔ (s2.length : ℚ)) = (s2.length : ℚ) := by
        simp only [List.length_nil, Nat.cast_zero]
        exact max_eq_right (Nat.cast_nonneg _)
      rw [hmaxeq]
      have hQ : ((s2.length : ℚ)) ≠ 0 := by
        exact_mod_cast hpos
      rw [div_self hQ]
      norm_num
    · subst h1
      have hs1 : s1 ≠ [] := by
        intro hs
        subst hs
        exact h rfl
      have hpos : s1.length ≠ 0 := fun hh => hs1 (List.length_eq_zero.mp hh)
      rw [show lowerStr ([] : List Char) = [] from rfl]
      rw [levClassic_nil_right, lowerStr_length]
      have hmaxeq : (((s1.length : ℚ)) ⊔ (([] : List Char).length : ℚ)) = (s1.length : ℚ) := by
        simp only [List.length_nil, Nat.cast_zero]
        exact max_eq_left (Nat.cast_nonneg _)
      rw [hmaxeq]
      have hQ : ((s1.length : ℚ)) ≠ 0 := by
        exact_mod_cast hpos
      rw [div_self hQ]
      norm_num
  · push_neg at h1
    obtain ⟨hs1, hs2⟩ := h1
    rw [if_neg (not_or.mpr ⟨hs1, hs2⟩)]
    dsimp only
    rw [if_neg h]
    have hmax : ¬ (max (lowerStr s1).length (lowerStr s2).length = 0) := by
      have : s1.length ≠ 0 := fun hh => hs1 (List.length_eq_zero.mp hh)
      simp only [lowerStr_length]
      omega
    rw [if_neg hmax]
    rw [Rat.mkRat_eq_div, editDistance_eq_levClassic]
    simp only [lowerStr_length]
    push_cast
    ring

theorem similarityRatioQ_mem_unit (s1 s2 : List Char) :
    0 ≤ similarityRatioQ s1 s2 ∧ similarityRatioQ s1 s2 ≤ 1 := by
  by_cases h0 : s1 = [] ∨ s2 = []
  · unfold similarityRatioQ
    rw [if_pos h0]
    norm_num
  by_cases heq : lowerStr s1 = lowerStr s2
  · unfold similarityRatioQ
    rw [if_neg h0]
    dsimp only
    rw [if_pos heq]
    norm_num
  · rw [similarityRatioQ_of_ne s1 s2 heq]
    push_neg at h0
    obtain ⟨hs1, hs2⟩ := h0
    have hpos : 0 < max s1.length s2.length := by
      have : s1.length ≠ 0 := fun hh => hs1 (List.length_eq_zero.mp hh)
      omega
    have hposQ : (0:ℚ) < (max s1.length s2.length : ℚ) := by exact_mod_cast hpos
    have hle : levClassic (lowerStr s1) (lowerStr s2) ≤ max s1.length s2.length := by
      have h2 := levClassic_le_max ((lowerStr s1).length + (lowerStr s2).length)
        (lowerStr s1) (lowerStr s2) le_rfl
      simpa [lowerStr_length] using h2
    constructor
    · have hd : (levClassic (lowerStr s1) (lowerStr s2) : ℚ) / (max s1.length s2.length : ℚ) ≤ 1 := by
        rw [div_le_one hposQ]
        exact_mod_cast hle
      linarith
    · have hd : (0:ℚ) ≤ (levClassic (lowerStr s1) (lowerStr s2) : ℚ) / (max s1.length s2.length : ℚ) :=
        div_nonneg (by positivity) (le_of_lt hposQ)
      linarith

theorem similarityRatioQ_eq_one (s1 s2 : List Char) (h1 : s1 ≠ []) (h2 : s2 ≠ [])
    (h : lowerStr s1 = lowerStr s2) : similarityRatioQ s1 s2 = 1 := by
  unfold similarityRatioQ
  rw [if_neg (not_or.mpr ⟨h1, h2⟩)]
  dsimp only
  rw [if_pos h]

/-- C5: `similarity_ratio` always lies in [0,1]; `_edit_distance` computes the
classic Levenshtein distance (unit-cost insertion, deletion, substitution);
whenever both strings are non-empty and equal case-insensitively the ratio is
1; whenever the lower-cased strings differ the ratio is `1 - distance /
max(len(a), len(b))`; and `edit_distance("kitten", "sitting") = 3` with
similarity `1 - 3/7`.  (When both strings are empty the code returns 0 even
though they are equal case-insensitively; see the counterexample.) -/
theorem similarity_ratio_characterization :
    (∀ s1 s2 : List Char, editDistance s1 s2 = levClassic s1 s2)
    ∧ (∀ s1 s2 : List Char, 0 ≤ similarityRatioQ s1 s2 ∧ similarityRatioQ s1 s2 ≤ 1)
    ∧ (∀ s1 s2 : List Char, s1 ≠ [] → s2 ≠ [] → lowerStr s1 = lowerStr s2 →
        similarityRatioQ s1 s2 = 1)
    ∧ (∀ s1 s2 : List Char, lowerStr s1 ≠ lowerStr s2 →
        similarityRatioQ s1 s2
          = 1 - (levClassic (lowerStr s1) (lowerStr s2) : ℚ)
              / (max s1.length s2.length : ℚ))
    ∧ editDistance (strL "kitten") (strL "sitting") = 3
    ∧ similarityRatioQ (strL "kitten") (strL "sitting") = 1 - mkRat 3 7 :=
  ⟨editDistance_eq_levClassic, similarityRatioQ_mem_unit, similarityRatioQ_eq_one,
   similarityRatioQ_of_ne, by decide, by with_unfolding_all rfl⟩

/-- C5 witness: the characterization at concrete inputs: "AB" and "ab" are
equal case-insensitively and score 1; "kitten" and "sitting" differ and score
by the `1 - distance / max-length` formula. -/
theorem similarity_ratio_characterization_witness :
    similarityRatioQ (strL "AB") (strL "ab") = 1
    ∧ similarityRatioQ (strL "kitten") (strL "sitting")
        = 1 - (levClassic (lowerStr (strL "kitten")) (lowerStr (strL "sitting")) : ℚ)
            / (max (strL "kitten").length (strL "sitting").length : ℚ) :=
  ⟨similarity_ratio_characterization.2.2.1 (strL "AB") (strL "ab")
      (by decide) (by decide) (by decide),
   similarity_ratio_characterization.2.2.2.1 (strL "kitten") (strL "sitting") (by decide)⟩

/-! ### Correctness of the exact matchers (claims C1 and C2) -/

theorem take_succ_getD (l : List Char) (k : Nat) (hk : k < l.length) :
    l.take (k + 1) = l.take k ++ [l.getD k ' '] := by
  rw [List.take_succ]
  congr 1
  rw [List.getD_eq_getElem l ' ' hk]
  rw [List.getElem?_eq_getElem hk]
  rfl

theorem suffix_of_suffix_le (a b c : List Char) (ha : a <:+ c) (hb : b <:+ c)
    (hab : a.length ≤ b.length) : a <:+ b := by
  obtain ⟨u, hu⟩ := ha
  obtain ⟨v, hv⟩ := hb
  refine ⟨u.drop v.length, ?_⟩
  have hlen : v.length ≤ u.length := by
    have h1 : u.length + a.length = c.length := by
      rw [← hu, List.length_append]
    have h2 : v.length + b.length = c.length := by
      rw [← hv, List.length_append]
    omega
  have h3 : (u ++ a).drop v.length = (v ++ b).drop v.length := by
    rw [hu, hv]
  rw [List.drop_append_of_le_length hlen, List.drop_left] at h3
  exact h3

theorem concat_eq_concat_iff (l₁ l₂ : List Char) (a b : Char) :
    l₁ ++ [a] = l₂ ++ [b] ↔ l₁ = l₂ ∧ a = b := by
  constructor
  · intro h
    have hlen : l₁.length = l₂.length := by
      have := congrArg List.length h
      simp at this
      exact this
    obtain ⟨h1, h2⟩ := List.append_inj h hlen
    exact ⟨h1, by simpa using h2⟩
  · rintro ⟨h1, h2⟩
    rw [h1, h2]

/-- Extending a suffix-match by one character on the right. -/
theorem suffix_take_succ_iff (t p : List Char) (i k : Nat)
    (hk : k + 1 ≤ p.length) (hi : i + 1 ≤ t.length) :
    p.take (k + 1) <:+ t.take (i + 1) ↔
      (p.take k <:+ t.take i ∧ p.getD k ' ' = t.getD i ' ') := by
  rw [take_succ_getD p k (by omega), take_succ_getD t i (by omega)]
  constructor
  · rintro ⟨u, hu⟩
    rw [← List.append_assoc] at hu
    rw [concat_eq_concat_iff] at hu
    exact ⟨⟨u, hu.1⟩, hu.2⟩
  · rintro ⟨⟨u, hu⟩, hc⟩
    exact ⟨u, by rw [← List.append_assoc, hu, hc]⟩

theorem length_take_of_le {l : List Char} {k : Nat} (h : k ≤ l.length) :
    (l.take k).length = k := by
  simp [List.length_take]
  omega

/-- Occurrence at `o` as a suffix of the prefix ending at `o + |p|`. -/
theorem occursAt_iff_suffix (t p : List Char) (o : Nat) (hom : o + p.length ≤ t.length) :
    p <+: t.drop o ↔ p <:+ t.take (o + p.length) := by
  rw [List.prefix_iff_eq_take, List.suffix_iff_eq_drop]
  rw [length_take_of_le hom]
  rw [Nat.add_sub_cancel]
  rw [List.drop_take, Nat.add_sub_cancel_left]

theorem maxBorder_suffix (s : List Char) : s.take (maxBorder s) <:+ s := by
  unfold maxBorder
  exact Nat.findGreatest_spec (P := fun k => s.take k <:+ s) (Nat.zero_le _)
    (show s.take 0 <:+ s by simp)

theorem maxBorder_lt (s : List Char) (hs : s ≠ []) : maxBorder s < s.length := by
  have h1 : maxBorder s ≤ s.length - 1 := Nat.findGreatest_le _
  have h2 : 0 < s.length := List.length_pos.mpr hs
  omega

theorem le_maxBorder (s : List Char) (k : Nat) (hk : k < s.length)
    (h : s.take k <:+ s) : k ≤ maxBorder s :=
  Nat.le_findGreatest (by omega) h

/-- No border strictly between `maxBorder (p.take j)` and `j` matches against
context `w`: any shorter simultaneous suffix is a border of `p.take j`. -/
theorem no_border_between (p w : List Char) (j k : Nat) (hj : j ≤ p.length)
    (hkj : k < j) (hkw : p.take k <:+ w) (hjw : p.take j <:+ w) :
    k ≤ maxBorder (p.take j) := by
  have hkp : k ≤ p.length := by omega
  have h1 : p.take k <:+ p.take j := by
    refine suffix_of_suffix_le _ _ _ hkw hjw ?_
    rw [length_take_of_le hkp, length_take_of_le hj]
    omega
  have h2 : (p.take j).take k = p.take k := by
    rw [List.take_take]
    congr 1
    omega
  refine le_maxBorder (p.take j) k ?_ (by rw [h2]; exact h1)
  rw [length_take_of_le hj]
  omega

theorem occUpTo_saturated (t p : List Char) (bound : Nat)
    (h : t.length + 1 - p.length ≤ bound) :
    occUpTo t p bound
      = (List.range (t.length + 1 - p.length)).filter (fun o => decide (p <+: t.drop o)) := by
  unfold occUpTo
  refine List.filter_congr ?_
  intro x hx
  rw [List.mem_range] at hx
  have : x < bound := by omega
  simp [this]

theorem occUpTo_succ_no (t p : List Char) (b : Nat)
    (h : ¬ (b < t.length + 1 - p.length ∧ p <+: t.drop b)) :
    occUpTo t p (b + 1) = occUpTo t p b := by
  unfold occUpTo
  refine List.filter_congr ?_
  intro x hx
  rw [List.mem_range] at hx
  by_cases hxb : x = b
  · subst hxb
    have : ¬ p <+: t.drop x := fun hc => h ⟨hx, hc⟩
    simp [this]
  · have hd : decide (x < b + 1) = decide (x < b) := by
      rw [decide_eq_decide]
      omega
    rw [hd]

theorem occUpTo_succ_yes (t p : List Char) (b : Nat)
    (hb : b < t.length + 1 - p.length) (h : p <+: t.drop b) :
    occUpTo t p (b + 1) = occUpTo t p b ++ [b] := by
  unfold occUpTo
  have hsplit : t.length + 1 - p.length = (b + 1) + (t.length + 1 - p.length - (b + 1)) := by
    omega
  rw [hsplit, List.range_add, List.filter_append, List.filter_append,
    List.range_succ, List.filter_append, List.filter_append]
  have h1 : List.filter (fun o => decide (p <+: t.drop o) && decide (o < b + 1)) [b]
      = [b] := by
    simp [h]
  have h2 : List.filter (fun o => decide (p <+: t.drop o) && decide (o < b)) [b]
      = [] := by
    simp [h]
  have h3 : ∀ L : List Nat, List.filter (fun o => decide (p <+: t.drop o) && decide (o < b + 1))
        (L.map (fun x => b + 1 + x))
      = [] := by
    intro L
    rw [List.filter_map]
    rw [show (List.filter (((fun o => decide (p <+: t.drop o) && decide (o < b + 1))) ∘
        (fun x => b + 1 + x)) L) = [] from ?_]
    · rfl
    · apply List.filter_eq_nil_iff.mpr
      intro a _
      simp only [Function.comp]
      have : ¬ (b + 1 + a < b + 1) := by omega
      simp [this]
  have h4 : ∀ L : List Nat, List.filter (fun o => decide (p <+: t.drop o) && decide (o < b))
        (L.map (fun x => b + 1 + x))
      = [] := by
    intro L
    rw [List.filter_map]
    rw [show (List.filter (((fun o => decide (p <+: t.drop o) && decide (o < b))) ∘
        (fun x => b + 1 + x)) L) = [] from ?_]
    · rfl
    · apply List.filter_eq_nil_iff.mpr
      intro a _
      simp only [Function.comp]
      have : ¬ (b + 1 + a < b) := by omega
      simp [this]
  rw [h1, h2, h3, h4]
  have h5 : List.filter (fun o => decide (p <+: t.drop o) && decide (o < b + 1)) (List.range b)
      = List.filter (fun o => decide (p <+: t.drop o) && decide (o < b)) (List.range b) := by
    refine List.filter_congr ?_
    intro x hx
    rw [List.mem_range] at hx
    have e1 : decide (x < b + 1) = decide (x < b) := by
      rw [decide_eq_decide]
      omega
    rw [e1]
  rw [h5]
  simp

theorem occUpTo_zero (t p : List Char) : occUpTo t p 0 = [] := by
  unfold occUpTo
  apply List.filter_eq_nil_iff.mpr
  intro a _
  simp

theorem getD_map_range (f : Nat → Nat) (n k : Nat) (d : Nat) (h : k < n) :
    ((List.range n).map f).getD k d = f k := by
  have hlen : k < ((List.range n).map f).length := by
    rw [List.length_map, List.length_range]
    exact h
  rw [List.getD_eq_getElem _ _ hlen, List.getElem_map, List.getElem_range]

theorem take_p_suffix_of_border (p w : List Char) (j : Nat) (_hj : j ≤ p.length)
    (hjw : p.take j <:+ w) (k : Nat) (hk : k ≤ j) (hks : (p.take j).take k <:+ p.take j) :
    p.take k <:+ w := by
  have h1 : (p.take j).take k = p.take k := by
    rw [List.take_take]
    congr 1
    omega
  rw [h1] at hks
  exact hks.trans hjw

/-- The failure-chase finds the longest simultaneous suffix that can still be
extended by `c` (or 0). -/
theorem kmpChase_spec (p w : List Char) (tab : List Nat) (c : Char) (i : Nat)
    (hi : i ≤ p.length)
    (htab : ∀ r, 1 ≤ r → r ≤ i → tab.getD (r - 1) 0 = maxBorder (p.take r)) :
    ∀ fuel j, j < fuel → j ≤ i → p.take j <:+ w →
      (kmpChase p tab c fuel j ≤ j
        ∧ p.take (kmpChase p tab c fuel j) <:+ w
        ∧ (p.getD (kmpChase p tab c fuel j) ' ' = c ∨ kmpChase p tab c fuel j = 0)
        ∧ (∀ k, kmpChase p tab c fuel j < k → k ≤ j → p.take k <:+ w →
            p.getD k ' ' ≠ c)) := by
  intro fuel
  induction fuel with
  | zero =>
    intro j hj
    intro h1 h2
    omega
  | succ fuel ih =>
    intro j hfuel hji hjw
    by_cases hcond : 0 < j ∧ p.getD j ' ' ≠ c
    · have hstep : kmpChase p tab c (fuel + 1) j = kmpChase p tab c fuel (tab.getD (j - 1) 0) := by
        rw [kmpChase]
        rw [if_pos hcond]
      have htj : tab.getD (j - 1) 0 = maxBorder (p.take j) := htab j hcond.1 hji
      have hjne : p.take j ≠ [] := by
        intro hcontra
        have := congrArg List.length hcontra
        rw [length_take_of_le (by omega)] at this
        simp at this
        omega
      have hjlt : maxBorder (p.take j) < j := by
        have := maxBorder_lt (p.take j) hjne
        rwa [length_take_of_le (by omega)] at this
      have hj'w : p.take (maxBorder (p.take j)) <:+ w :=
        take_p_suffix_of_border p w j (by omega) hjw _ (by omega) (maxBorder_suffix _)
      rw [hstep, htj]
      obtain ⟨ha, hb, hc, hd⟩ := ih (maxBorder (p.take j)) (by omega) (by omega) hj'w
      refine ⟨by omega, hb, hc, ?_⟩
      intro k hk1 hk2 hkw
      by_cases hkj : k ≤ maxBorder (p.take j)
      · exact hd k hk1 hkj hkw
      · by_cases hkj2 : k < j
        · exact absurd (no_border_between p w j k (by omega) hkj2 hkw hjw) (by omega)
        · have : k = j := by omega
          subst this
          exact hcond.2
    · have hstep : kmpChase p tab c (fuel + 1) j = j := by
        rw [kmpChase]
        rw [if_neg hcond]
      rw [hstep]
      push_neg at hcond
      refine ⟨le_rfl, hjw, ?_, ?_⟩
      · by_cases hz : 0 < j
        · exact Or.inl (hcond hz)
        · exact Or.inr (by omega)
      · intro k hk1 hk2
        omega

theorem take_length_self (p : List Char) : p.take p.length = p := by simp

theorem take_ne_nil_of_pos (p : List Char) (i : Nat) (h1 : 1 ≤ i) (h2 : i ≤ p.length) :
    p.take i ≠ [] := by
  intro hcontra
  have h3 := congrArg List.length hcontra
  rw [length_take_of_le h2] at h3
  simp at h3
  omega

theorem maxBorder_take_lt (p : List Char) (i : Nat) (h1 : 1 ≤ i) (h2 : i ≤ p.length) :
    maxBorder (p.take i) < i := by
  have h3 := maxBorder_lt (p.take i) (take_ne_nil_of_pos p i h1 h2)
  rwa [length_take_of_le h2] at h3

theorem take_border_suffix (p : List Char) (i k : Nat) (hk : k ≤ i) (_hi : i ≤ p.length)
    (h : (p.take i).take k <:+ p.take i) : p.take k <:+ p.take i := by
  have h2 : (p.take i).take k = p.take k := by
    rw [List.take_take]
    congr 1
    omega
  rwa [h2] at h

theorem maxBorder_take_suffix (p : List Char) (i : Nat) (hi : i ≤ p.length) :
    p.take (maxBorder (p.take i)) <:+ p.take i := by
  by_cases h1 : 1 ≤ i
  · exact take_border_suffix p i _ (le_of_lt (maxBorder_take_lt p i h1 hi)) hi
      (maxBorder_suffix _)
  · have : i = 0 := by omega
    subst this
    simp [maxBorder]

theorem maxBorder_le_border (p : List Char) (i k : Nat) (_h1 : 1 ≤ i) (hi : i ≤ p.length)
    (hk : k < i) (hs : p.take k <:+ p.take i) : k ≤ maxBorder (p.take i) := by
  refine le_maxBorder (p.take i) k ?_ ?_
  · rw [length_take_of_le hi]
    exact hk
  · have h2 : (p.take i).take k = p.take k := by
      rw [List.take_take]
      congr 1
      omega
    rw [h2]
    exact hs

/-- A positive border length of `p.take (i+1)` decomposes into a border of
`p.take i` extended by a matching character. -/
theorem maxBorder_succ_decomp (p : List Char) (i : Nat) (hi : i < p.length)
    (hpos : 0 < maxBorder (p.take (i + 1))) :
    ∃ B', maxBorder (p.take (i + 1)) = B' + 1 ∧ p.take B' <:+ p.take i
      ∧ p.getD B' ' ' = p.getD i ' ' ∧ B' < i ∧ B' ≤ maxBorder (p.take i) := by
  have hBlt : maxBorder (p.take (i + 1)) < i + 1 := maxBorder_take_lt p (i + 1) (by omega) (by omega)
  have hBs : p.take (maxBorder (p.take (i + 1))) <:+ p.take (i + 1) :=
    maxBorder_take_suffix p (i + 1) (by omega)
  obtain ⟨B', hB'⟩ : ∃ B', maxBorder (p.take (i + 1)) = B' + 1 :=
    ⟨maxBorder (p.take (i + 1)) - 1, by omega⟩
  rw [hB'] at hBs hBlt
  obtain ⟨hB's, hB'c⟩ := (suffix_take_succ_iff p p i B' (by omega) (by omega)).mp hBs
  have hB'i : B' < i := by omega
  refine ⟨B', hB', hB's, hB'c, hB'i, ?_⟩
  by_cases h1 : 1 ≤ i
  · exact maxBorder_le_border p i B' h1 (by omega) hB'i hB's
  · omega

/-- One step of the failure-table recurrence: the chase-plus-extend update
computes the next maximal border length. -/
theorem maxBorder_take_succ (p : List Char) (i j : Nat) (hi1 : 1 ≤ i) (hi : i < p.length)
    (hj : j = maxBorder (p.take i)) (tab : List Nat)
    (htab : ∀ r, 1 ≤ r → r ≤ i → tab.getD (r - 1) 0 = maxBorder (p.take r)) :
    (let c := p.getD i ' '
     let j1 := kmpChase p tab c (j + 1) j
     (if c = p.getD j1 ' ' then j1 + 1 else j1) = maxBorder (p.take (i + 1))) := by
  intro c j1
  have hji : j < i := by
    have h1 := maxBorder_take_lt p i hi1 (by omega)
    omega
  have hjw : p.take j <:+ p.take i := by
    rw [hj]
    exact maxBorder_take_suffix p i (by omega)
  obtain ⟨ha, hb, hc, hd⟩ := kmpChase_spec p (p.take i) tab c i (by omega) htab
    (j + 1) j (by omega) (by omega) hjw
  show (if c = p.getD j1 ' ' then j1 + 1 else j1) = maxBorder (p.take (i + 1))
  have hj1i : j1 ≤ j := ha
  by_cases hcc : c = p.getD j1 ' '
  · rw [if_pos hcc]
    have hext : p.take (j1 + 1) <:+ p.take (i + 1) :=
      (suffix_take_succ_iff p p i j1 (by omega) (by omega)).mpr ⟨hb, hcc.symm⟩
    have hge : j1 + 1 ≤ maxBorder (p.take (i + 1)) :=
      maxBorder_le_border p (i + 1) (j1 + 1) (by omega) (by omega) (by omega) hext
    have hle : maxBorder (p.take (i + 1)) ≤ j1 + 1 := by
      by_contra hlt
      push_neg at hlt
      obtain ⟨B', hBeq, hB's, hB'c, hB'i, hB'j⟩ :=
        maxBorder_succ_decomp p i hi (by omega)
      rw [hBeq] at hlt
      have hB'jle : B' ≤ j := by omega
      by_cases hB'r : B' ≤ j1
      · omega
      · exact hd B' (by omega) hB'jle hB's hB'c
    omega
  · rw [if_neg hcc]
    have hr0 : j1 = 0 := by
      rcases hc with h | h
      · exact absurd h.symm hcc
      · exact h
    rw [hr0]
    by_contra hne
    have hBpos : 0 < maxBorder (p.take (i + 1)) := by
      rcases Nat.eq_zero_or_pos (maxBorder (p.take (i + 1))) with h | h
      · exact absurd h.symm hne
      · exact h
    obtain ⟨B', hBeq, hB's, hB'c, hB'i, hB'j⟩ := maxBorder_succ_decomp p i hi hBpos
    have hB'jle : B' ≤ j := by
      rw [hj]
      exact hB'j
    by_cases hB'0 : B' = 0
    · subst hB'0
      rw [hr0] at hcc
      exact hcc hB'c.symm
    · exact hd B' (by omega) hB'jle hB's hB'c

theorem kmpBuildGo_spec (p : List Char) :
    ∀ cnt i tab j, 1 ≤ i → i + cnt = p.length →
      tab = (List.range i).map (fun r => maxBorder (p.take (r + 1))) →
      j = maxBorder (p.take i) →
      kmpBuildGo p cnt i tab j = failSpec p := by
  intro cnt
  induction cnt with
  | zero =>
    intro i tab j hi1 hi htab hj
    have hip : i = p.length := by omega
    subst hip
    rw [kmpBuildGo, htab, failSpec]
  | succ cnt ih =>
    intro i tab j hi1 hi htab hj
    rw [kmpBuildGo]
    have htabD : ∀ r, 1 ≤ r → r ≤ i → tab.getD (r - 1) 0 = maxBorder (p.take r) := by
      intro r hr1 hri
      rw [htab]
      rw [getD_map_range _ i (r - 1) 0 (by omega)]
      have hr : r - 1 + 1 = r := by omega
      rw [hr]
    have hstep := maxBorder_take_succ p i j hi1 (by omega) hj tab htabD
    dsimp only at hstep ⊢
    rw [hstep]
    refine ih (i + 1) (tab ++ [maxBorder (p.take (i + 1))]) (maxBorder (p.take (i + 1)))
      (by omega) (by omega) ?_ rfl
    rw [htab, List.range_succ, List.map_append]
    rfl

theorem buildFailureFunction_eq (p : List Char) (hp : p ≠ []) :
    buildFailureFunction p = failSpec p := by
  unfold buildFailureFunction
  have hlen : p.length ≠ 0 := by
    intro h
    exact hp (List.length_eq_zero.mp h)
  rw [if_neg hlen]
  refine kmpBuildGo_spec p (p.length - 1) 1 [0] 0 le_rfl (by omega) ?_ ?_
  · have h1 : maxBorder (p.take 1) = 0 := by
      have := maxBorder_take_lt p 1 le_rfl (by omega)
      omega
    have h2 : List.map (fun r => maxBorder (p.take (r + 1))) (List.range 1)
        = [maxBorder (p.take 1)] := rfl
    rw [h2, h1]
  · have := maxBorder_take_lt p 1 le_rfl (by omega)
    omega

theorem failSpec_getD (p : List Char) (j : Nat) (hj : j < p.length) :
    (failSpec p).getD j 0 = maxBorder (p.take (j + 1)) := by
  unfold failSpec
  exact getD_map_range _ _ _ _ hj

theorem occUpTo_bound_succ_of_no_end (t p : List Char) (i : Nat)
    (hnoocc : ¬ p <:+ t.take (i + 1)) :
    occUpTo t p (i + 1 + 1 - p.length) = occUpTo t p (i + 1 - p.length) := by
  by_cases hmi : p.length ≤ i + 1
  · have hb : i + 1 + 1 - p.length = (i + 1 - p.length) + 1 := by omega
    rw [hb]
    apply occUpTo_succ_no
    rintro ⟨hb1, hb2⟩
    apply hnoocc
    have hom : (i + 1 - p.length) + p.length ≤ t.length := by omega
    have h2 := (occursAt_iff_suffix t p (i + 1 - p.length) hom).mp hb2
    rwa [show (i + 1 - p.length) + p.length = i + 1 by omega] at h2
  · have hb : i + 1 + 1 - p.length = i + 1 - p.length := by omega
    rw [hb]

theorem no_full_occ (t p : List Char) (i j : Nat) (hm : 0 < p.length)
    (hin : i < t.length) (_hjm : j < p.length)
    (h4 : ∀ k, j < k → k < p.length → p.take k <:+ t.take i → p.getD k ' ' ≠ t.getD i ' ')
    (hlast : p.length - 1 ≤ j → ¬ t.getD i ' ' = p.getD (p.length - 1) ' ') :
    ¬ p <:+ t.take (i + 1) := by
  intro hocc
  have hocc2 : p.take ((p.length - 1) + 1) <:+ t.take (i + 1) := by
    rw [show (p.length - 1) + 1 = p.length by omega, take_length_self]
    exact hocc
  obtain ⟨hs, hc⟩ := (suffix_take_succ_iff t p i (p.length - 1) (by omega) (by omega)).mp hocc2
  by_cases hcase : p.length - 1 ≤ j
  · exact hlast hcase hc.symm
  · exact h4 (p.length - 1) (by omega) (by omega) hs hc

set_option maxHeartbeats 1000000 in
theorem kmpSearchLoop_spec (t p : List Char) (hp : p ≠ []) :
    ∀ fuel i j ms,
      i ≤ t.length → j < p.length →
      p.take j <:+ t.take i →
      (∀ k, j < k → k < p.length → p.take k <:+ t.take i → p.getD k ' ' ≠ t.getD i ' ') →
      ms = occUpTo t p (i + 1 - p.length) →
      2 * (t.length - i) + j + 1 ≤ fuel →
      kmpSearchLoop t p (failSpec p) fuel i j ms = occUpTo t p (t.length + 1 - p.length) := by
  have hm : 0 < p.length := List.length_pos.mpr hp
  intro fuel
  induction fuel with
  | zero =>
    intro i j ms h1 h2 h3 h4 h5 hfuel
    omega
  | succ fuel ih =>
    intro i j ms h1 h2 h3 h4 h5 hfuel
    rw [kmpSearchLoop]
    by_cases hin : i < t.length
    · rw [if_pos hin]
      by_cases hmatch : t.getD i ' ' = p.getD j ' '
      · rw [if_pos hmatch]
        have hsufx : p.take (j + 1) <:+ t.take (i + 1) :=
          (suffix_take_succ_iff t p i j (by omega) (by omega)).mpr ⟨h3, hmatch.symm⟩
        by_cases hfull : j + 1 = p.length
        · rw [if_pos hfull]
          have hjlei : j ≤ i := by
            have hlen := h3.length_le
            rw [length_take_of_le (by omega), length_take_of_le (by omega)] at hlen
            exact hlen
          have hocc : p <:+ t.take (i + 1) := by
            rw [← take_length_self p, ← hfull]
            exact hsufx
          have hfd : (failSpec p).getD j 0 = maxBorder p := by
            rw [failSpec_getD p j h2, hfull, take_length_self]
          have hmbm : maxBorder p < p.length := maxBorder_lt p hp
          have hms' : ms ++ [i + 1 - (j + 1)] = occUpTo t p (i + 1 + 1 - p.length) := by
            have hb : i + 1 - (j + 1) = i + 1 - p.length := by rw [hfull]
            have hmi : p.length ≤ i + 1 := by omega
            have hocc2 : p <+: t.drop (i + 1 - p.length) := by
              refine (occursAt_iff_suffix t p (i + 1 - p.length) (by omega)).mpr ?_
              rwa [show (i + 1 - p.length) + p.length = i + 1 by omega]
            have hbb : i + 1 + 1 - p.length = (i + 1 - p.length) + 1 := by omega
            rw [hb, hbb, occUpTo_succ_yes t p (i + 1 - p.length) (by omega) hocc2, h5]
          rw [hfd]
          refine ih (i + 1) (maxBorder p) _ (by omega) (by omega) ?_ ?_ hms' (by omega)
          · exact (maxBorder_suffix p).trans hocc
          · intro k hk1 hk2 hkw
            have hk3 : k ≤ maxBorder p := by
              have := no_border_between p (t.take (i + 1)) p.length k le_rfl (by omega) hkw
                (by rw [take_length_self]; exact hocc)
              rwa [take_length_self] at this
            omega
        · rw [if_neg hfull]
          have h4' : ∀ k, j + 1 < k → k < p.length → p.take k <:+ t.take (i + 1) →
              p.getD k ' ' ≠ t.getD (i + 1) ' ' := by
            intro k hk1 hk2 hkw
            obtain ⟨k', rfl⟩ : ∃ k', k = k' + 1 := ⟨k - 1, by omega⟩
            obtain ⟨hs, hc⟩ := (suffix_take_succ_iff t p i k' (by omega) (by omega)).mp hkw
            exact absurd hc (h4 k' (by omega) (by omega) hs)
          have hnoocc : ¬ p <:+ t.take (i + 1) := by
            refine no_full_occ t p i j hm hin h2 h4 ?_
            intro hc
            omega
          refine ih (i + 1) (j + 1) ms (by omega) (by omega) hsufx h4' ?_ (by omega)
          rw [h5, occUpTo_bound_succ_of_no_end t p i hnoocc]
      · rw [if_neg hmatch]
        by_cases hj0 : j = 0
        · rw [if_neg (by omega)]
          subst hj0
          have h4' : ∀ k, 0 < k → k < p.length → p.take k <:+ t.take (i + 1) →
              p.getD k ' ' ≠ t.getD (i + 1) ' ' := by
            intro k hk1 hk2 hkw
            obtain ⟨k', rfl⟩ : ∃ k', k = k' + 1 := ⟨k - 1, by omega⟩
            obtain ⟨hs, hc⟩ := (suffix_take_succ_iff t p i k' (by omega) (by omega)).mp hkw
            by_cases hk'0 : k' = 0
            · subst hk'0
              exact absurd hc.symm hmatch
            · exact absurd hc (h4 k' (by omega) (by omega) hs)
          have hnoocc : ¬ p <:+ t.take (i + 1) := by
            refine no_full_occ t p i 0 hm hin (by omega) h4 ?_
            intro hc
            have : p.length - 1 = 0 := by omega
            rw [this]
            exact hmatch
          refine ih (i + 1) 0 ms (by omega) (by omega) (by simp) h4' ?_ (by omega)
          rw [h5, occUpTo_bound_succ_of_no_end t p i hnoocc]
        · rw [if_pos hj0]
          have hfd : (failSpec p).getD (j - 1) 0 = maxBorder (p.take j) := by
            rw [failSpec_getD p (j - 1) (by omega)]
            congr 2
            omega
          have hmbj : maxBorder (p.take j) < j := maxBorder_take_lt p j (by omega) (by omega)
          have h3' : p.take (maxBorder (p.take j)) <:+ t.take i :=
            (maxBorder_take_suffix p j (by omega)).trans h3
          have h4' : ∀ k, maxBorder (p.take j) < k → k < p.length → p.take k <:+ t.take i →
              p.getD k ' ' ≠ t.getD i ' ' := by
            intro k hk1 hk2 hkw
            by_cases hkj : k < j
            · exact absurd (no_border_between p (t.take i) j k (by omega) hkj hkw h3)
                (by omega)
            · by_cases hkj2 : k = j
              · subst hkj2
                intro hc
                exact hmatch hc.symm
              · exact h4 k (by omega) hk2 hkw
          rw [hfd]
          exact ih i (maxBorder (p.take j)) ms (by omega) (by omega) h3' h4' h5 (by omega)
    · rw [if_neg hin]
      have hieq : i = t.length := by omega
      rw [h5, hieq]

theorem lowerStr_eq_nil_iff (s : List Char) : lowerStr s = [] ↔ s = [] := by
  unfold lowerStr
  exact List.map_eq_nil_iff

theorem lowerStr_length' (s : List Char) : (lowerStr s).length = s.length :=
  List.length_map _ _

theorem occList_nil_text (p : List Char) (hp : p ≠ []) : occList [] p = [] := by
  unfold occList
  have h : (0 : Nat) + 1 - p.length = 0 := by
    have := List.length_pos.mpr hp
    omega
  simp only [List.length_nil, h]
  rfl

theorem kmpSearch_eq (text pat : List Char) : kmpSearch text pat = matchSpec text pat := by
  unfold kmpSearch matchSpec
  by_cases hpat : pat = []
  · rw [if_pos (Or.inl hpat), if_pos hpat]
  · rw [if_neg hpat]
    by_cases htext : text = []
    · rw [if_pos (Or.inr htext), htext]
      rw [show lowerStr [] = [] from rfl]
      rw [occList_nil_text _ (by rwa [Ne, lowerStr_eq_nil_iff])]
    · rw [if_neg (by push_neg; exact ⟨hpat, htext⟩)]
      dsimp only
      have hp' : lowerStr pat ≠ [] := by rwa [Ne, lowerStr_eq_nil_iff]
      have hm : 0 < (lowerStr pat).length := List.length_pos.mpr hp'
      rw [buildFailureFunction_eq _ hp']
      rw [kmpSearchLoop_spec (lowerStr text) (lowerStr pat) hp'
        (2 * (lowerStr text).length + (lowerStr pat).length + 1) 0 0 []
        (by omega) (by omega) (by simp) ?_ ?_ (by omega)]
      · rw [occUpTo_saturated _ _ _ le_rfl]
        rfl
      · intro k hk1 hk2 hkw
        have hlen := hkw.length_le
        rw [length_take_of_le (by omega)] at hlen
        simp at hlen
        omega
      · rw [show (0 : Nat) + 1 - (lowerStr pat).length = 0 by omega, occUpTo_zero]

theorem getD_drop_add (t : List Char) (s r : Nat) :
    (t.drop s).getD r ' ' = t.getD (s + r) ' ' := by
  rw [List.getD_eq_getElem?_getD, List.getD_eq_getElem?_getD, List.getElem?_drop]

theorem getD_take_of_lt (t : List Char) (m r : Nat) (h : r < m) :
    (t.take m).getD r ' ' = t.getD r ' ' := by
  rw [List.getD_eq_getElem?_getD, List.getD_eq_getElem?_getD, List.getElem?_take_of_lt h]

/-- Pointwise characterization of an occurrence. -/
theorem occursAt_iff_forall (t p : List Char) (s : Nat) (h : s + p.length ≤ t.length) :
    p <+: t.drop s ↔ ∀ r, r < p.length → p.getD r ' ' = t.getD (s + r) ' ' := by
  rw [List.prefix_iff_eq_take]
  have hlen : ((t.drop s).take p.length).length = p.length := by
    rw [List.length_take, List.length_drop]
    omega
  constructor
  · intro he r hr
    conv_lhs => rw [he]
    rw [getD_take_of_lt _ _ _ hr, getD_drop_add]
  · intro hall
    apply List.ext_getElem (by omega)
    intro r hr1 hr2
    rw [← List.getD_eq_getElem p ' ' hr1, ← List.getD_eq_getElem _ ' ' hr2]
    rw [getD_take_of_lt _ _ _ hr1, getD_drop_add]
    exact hall r hr1

theorem bmCheckFrom_none (t p : List Char) (s : Nat) :
    ∀ j, bmCheckFrom t p s j = none →
      ∀ r, r ≤ j → p.getD r ' ' = t.getD (s + r) ' ' := by
  intro j
  induction j with
  | zero =>
    intro hnone r hr
    rw [bmCheckFrom] at hnone
    split_ifs at hnone with h
    have : r = 0 := by omega
    subst this
    exact h
  | succ j' ih =>
    intro hnone r hr
    rw [bmCheckFrom] at hnone
    split_ifs at hnone with h
    by_cases hr2 : r = j' + 1
    · subst hr2
      exact h
    · exact ih hnone r (by omega)

theorem bmCheckFrom_some (t p : List Char) (s : Nat) :
    ∀ j jm, bmCheckFrom t p s j = some jm →
      jm ≤ j ∧ p.getD jm ' ' ≠ t.getD (s + jm) ' '
        ∧ ∀ r, jm < r → r ≤ j → p.getD r ' ' = t.getD (s + r) ' ' := by
  intro j
  induction j with
  | zero =>
    intro jm hsome
    rw [bmCheckFrom] at hsome
    split_ifs at hsome with h
    obtain rfl : jm = 0 := by
      injection hsome with h2
      omega
    exact ⟨le_rfl, h, by intro r h1 h2; omega⟩
  | succ j' ih =>
    intro jm hsome
    rw [bmCheckFrom] at hsome
    split_ifs at hsome with h
    · obtain ⟨h1, h2, h3⟩ := ih jm hsome
      refine ⟨by omega, h2, ?_⟩
      intro r hr1 hr2
      by_cases hr3 : r = j' + 1
      · subst hr3
        exact h
      · exact h3 r hr1 (by omega)
    · obtain rfl : jm = j' + 1 := by
        injection hsome with h2
        omega
      exact ⟨le_rfl, h, by intro r h1 h2; omega⟩

theorem lastOccAux_succ (p : List Char) (c : Char) (k : Nat) :
    lastOccAux p c (k + 1)
      = if p.getD k ' ' = c then (k : Int) else lastOccAux p c k := by
  unfold lastOccAux
  rw [List.range_succ, List.foldl_append]
  rfl

theorem lastOccAux_spec (p : List Char) (c : Char) :
    ∀ k, -1 ≤ lastOccAux p c k ∧ lastOccAux p c k < k
      ∧ (∀ i, i < k → p.getD i ' ' = c → (i : Int) ≤ lastOccAux p c k) := by
  intro k
  induction k with
  | zero =>
    refine ⟨le_rfl, by norm_num [lastOccAux], ?_⟩
    intro i hi
    omega
  | succ k ih =>
    obtain ⟨ih1, ih2, ih3⟩ := ih
    rw [lastOccAux_succ]
    by_cases h : p.getD k ' ' = c
    · rw [if_pos h]
      refine ⟨by omega, by omega, ?_⟩
      intro i hi _
      omega
    · rw [if_neg h]
      refine ⟨ih1, by omega, ?_⟩
      intro i hi hc
      have : i ≠ k := fun he => h (he ▸ hc)
      exact ih3 i (by omega) hc

theorem lastOccurrenceOf_eq_aux (p : List Char) (c : Char) :
    lastOccurrenceOf p c = lastOccAux p c p.length := rfl

theorem occUpTo_ext (t p : List Char) (b b' : Nat) (hbb : b ≤ b')
    (hno : ∀ o, b ≤ o → o < b' → o < t.length + 1 - p.length → ¬ p <+: t.drop o) :
    occUpTo t p b' = occUpTo t p b := by
  unfold occUpTo
  refine List.filter_congr ?_
  intro x hx
  rw [List.mem_range] at hx
  by_cases hxb : x < b
  · have hd : decide (x < b') = decide (x < b) := by
      rw [decide_eq_decide]
      omega
    rw [hd]
  · by_cases hxb' : x < b'
    · have : ¬ p <+: t.drop x := hno x (by omega) hxb' hx
      simp [this]
    · have hd : decide (x < b') = decide (x < b) := by
        rw [decide_eq_decide]
        omega
      rw [hd]

set_option maxHeartbeats 1000000 in
theorem bmSearchLoop_spec (t p : List Char) (hp : p ≠ []) (hmn : p.length ≤ t.length) :
    ∀ fuel shift ms,
      ms = occUpTo t p shift →
      t.length + 2 ≤ fuel + shift + p.length →
      bmSearchLoop t p fuel shift ms = occUpTo t p (t.length + 1 - p.length) := by
  have hm : 0 < p.length := List.length_pos.mpr hp
  intro fuel
  induction fuel with
  | zero =>
    intro shift ms h5 hfuel
    rw [bmSearchLoop, h5]
    refine occUpTo_ext t p (t.length + 1 - p.length) shift (by omega) ?_
    intro o ho1 ho2 ho3
    omega
  | succ fuel ih =>
    intro shift ms h5 hfuel
    rw [bmSearchLoop]
    by_cases hguard : shift + p.length ≤ t.length
    · rw [if_pos hguard]
      rcases hcheck : bmCheckFrom t p shift (p.length - 1) with _ | jm
      · have hocc : p <+: t.drop shift := by
          refine (occursAt_iff_forall t p shift (by omega)).mpr ?_
          intro r hr
          exact bmCheckFrom_none t p shift (p.length - 1) hcheck r (by omega)
        have hms' : ms ++ [shift] = occUpTo t p (shift + 1) := by
          rw [occUpTo_succ_yes t p shift (by omega) hocc, h5]
        exact ih (shift + 1) (ms ++ [shift]) hms' (by omega)
      · obtain ⟨hjm1, hjm2, hjm3⟩ := bmCheckFrom_some t p shift (p.length - 1) jm hcheck
        dsimp only
        obtain ⟨hlo1, hlo2, hlo3⟩ :=
          lastOccAux_spec p (t.getD (shift + jm) ' ') p.length
        rw [lastOccurrenceOf_eq_aux]
        have hskip1 : 1 ≤ (max 1 ((jm : Int) - lastOccAux p (t.getD (shift + jm) ' ') p.length)).toNat := by
          omega
        have hnoocc : ∀ o, shift ≤ o →
            o < shift + (max 1 ((jm : Int) - lastOccAux p (t.getD (shift + jm) ' ') p.length)).toNat →
            o < t.length + 1 - p.length → ¬ p <+: t.drop o := by
          intro o ho1 ho2 ho3 hocc
          have hall := (occursAt_iff_forall t p o (by omega)).mp hocc
          by_cases hos : o = shift
          · subst hos
            exact hjm2 (hall jm (by omega))
          · have hos2 : shift < o := by omega
            have holeshift : o ≤ shift + jm := by omega
            have hr : shift + jm - o < p.length := by omega
            have h6 := hall (shift + jm - o) hr
            rw [show o + (shift + jm - o) = shift + jm by omega] at h6
            have h7 := hlo3 (shift + jm - o) hr h6
            omega
        refine ih _ ms ?_ (by omega)
        rw [h5]
        exact (occUpTo_ext t p shift _ (by omega) hnoocc).symm
    · rw [if_neg hguard]
      rw [h5]
      refine occUpTo_ext t p (t.length + 1 - p.length) shift (by omega) ?_
      intro o ho1 ho2 ho3
      omega

theorem bmSearch_eq (text pat : List Char) : bmSearch text pat = matchSpec text pat := by
  unfold bmSearch matchSpec
  by_cases hpat : pat = []
  · rw [if_pos (Or.inl hpat), if_pos hpat]
  · rw [if_neg hpat]
    by_cases htext : text = []
    · rw [if_pos (Or.inr htext), htext]
      rw [show lowerStr [] = [] from rfl]
      rw [occList_nil_text _ (by rwa [Ne, lowerStr_eq_nil_iff])]
    · rw [if_neg (by push_neg; exact ⟨hpat, htext⟩)]
      have hp' : lowerStr pat ≠ [] := by rwa [Ne, lowerStr_eq_nil_iff]
      have hm : 0 < (lowerStr pat).length := List.length_pos.mpr hp'
      by_cases hmn : (lowerStr pat).length ≤ (lowerStr text).length
      · rw [bmSearchLoop_spec (lowerStr text) (lowerStr pat) hp' hmn (text.length + 1) 0 []
          (occUpTo_zero _ _).symm
          (by rw [lowerStr_length']; omega)]
        rw [occUpTo_saturated _ _ _ le_rfl]
        rfl
      · have hfuel : text.length + 1 = text.length + 1 := rfl
        rw [show text.length + 1 = text.length + 1 from rfl]
        rw [show (text.length + 1) = (text.length) + 1 from rfl]
        rw [bmSearchLoop]
        rw [if_neg (by omega)]
        unfold occList
        rw [show (lowerStr text).length + 1 - (lowerStr pat).length = 0 by omega]
        rfl

theorem getD_map_range_g {α : Type} (f : Nat → α) (n k : Nat) (d : α) (h : k < n) :
    ((List.range n).map f).getD k d = f k := by
  have hlen : k < ((List.range n).map f).length := by
    rw [List.length_map, List.length_range]
    exact h
  rw [List.getD_eq_getElem _ _ hlen, List.getElem_map, List.getElem_range]

theorem getD_append_last {α : Type} (l : List α) (x d : α) :
    (l ++ [x]).getD l.length d = x := by
  rw [List.getD_append_right _ _ _ _ le_rfl]
  simp

theorem set_map_range {α : Type} (f : Nat → α) (n i : Nat) (v : α) :
    ((List.range n).map f).set i v = (List.range n).map (fun j => if j = i then v else f j) := by
  apply List.ext_getElem
  · rw [List.length_set, List.length_map, List.length_map]
  · intro r hr1 hr2
    rw [List.getElem_set, List.getElem_map, List.getElem_map, List.getElem_range]
    by_cases h : i = r
    · subst h
      simp
    · rw [if_neg h, if_neg (fun hc => h hc.symm)]

theorem set_append_last {α : Type} (l : List α) (x v : α) :
    (l ++ [x]).set l.length v = l ++ [v] := by
  rw [List.set_append_right _ _ le_rfl]
  simp

theorem getD_append_last' {α : Type} (l : List α) (x d : α) (n : Nat) (h : n = l.length) :
    (l ++ [x]).getD n d = x := by
  subst h
  exact getD_append_last l x d

theorem set_append_last' {α : Type} (l : List α) (x v : α) (n : Nat) (h : n = l.length) :
    (l ++ [x]).set n v = l ++ [v] := by
  subst h
  exact set_append_last l x v

theorem acGetNode_partArena (p : List Char) (d : Nat) :
    acGetNode (partialArena p d) d = ⟨[], none, []⟩ := by
  unfold acGetNode partialArena
  rw [getD_append_last' _ _ _ _ (by rw [List.length_map, List.length_range])]

theorem partialArena_length (p : List Char) (d : Nat) :
    (partialArena p d).length = d + 1 := by
  unfold partialArena
  rw [List.length_append, List.length_map, List.length_range]
  rfl

theorem acInsertGo_path (p : List Char) :
    ∀ (s : List Char) (d : Nat), s = p.drop d → d ≤ p.length →
      acInsertGo (partialArena p d) d s = (partialArena p (d + s.length), d + s.length) := by
  intro s
  induction s with
  | nil =>
    intro d _ _
    rw [acInsertGo]
    simp
  | cons c rest ih =>
    intro d hs hd
    have hdm : d < p.length := by
      by_contra hge
      push_neg at hge
      have : p.drop d = [] := List.drop_eq_nil_of_le hge
      rw [this] at hs
      exact List.noConfusion hs
    have hc : c = p.getD d ' ' := by
      have h1 : (p.drop d).getD 0 ' ' = c := by rw [← hs]; rfl
      rw [getD_drop_add, Nat.add_zero] at h1
      exact h1.symm
    have hrest : rest = p.drop (d + 1) := by
      have h1 : (p.drop d).tail = rest := by rw [← hs]; rfl
      rw [← h1, List.tail_drop]
    rw [acInsertGo]
    rw [acGetNode_partArena]
    show acInsertGo _ _ rest = _
    have hlen : (partialArena p d).length = d + 1 := partialArena_length p d
    have hlen2 : ((List.range d).map (pathNode p)).length = d := by
      rw [List.length_map, List.length_range]
    have hset : acSetNode (partialArena p d) d
        ⟨[] ++ [(c, d + 1)], none, []⟩ ++ [⟨[], none, []⟩]
        = partialArena p (d + 1) := by
      unfold acSetNode partialArena
      rw [set_append_last' _ _ _ _ hlen2.symm]
      congr 1
      rw [List.range_succ, List.map_append]
      congr 1
      rw [hc]
      rfl
    rw [hlen]
    dsimp only
    rw [hset]
    rw [ih (d + 1) hrest (by omega)]
    have harith : d + 1 + rest.length = d + (c :: rest).length := by
      rw [List.length_cons]
      omega
    rw [harith]

theorem acInsertPattern_root (p : List Char) :
    acInsertPattern [⟨[], none, []⟩] p = trieOf p := by
  unfold acInsertPattern
  have h0 : ([⟨[], none, []⟩] : List ACNode) = partialArena p 0 := rfl
  rw [h0, acInsertGo_path p p 0 (by simp) (by omega)]
  dsimp only
  rw [Nat.zero_add]
  rw [acGetNode_partArena]
  unfold acSetNode partialArena trieOf
  rw [set_append_last' _ _ _ _ (by rw [List.length_map, List.length_range])]
  rfl

theorem bfsArena_length (p : List Char) (dd : Nat) :
    (bfsArena p dd).length = p.length + 1 := by
  unfold bfsArena
  rw [List.length_map, List.length_range]

theorem acGetNode_bfs (p : List Char) (dd e : Nat) (he : e ≤ p.length) :
    acGetNode (bfsArena p dd) e = acNodeAt p dd e := by
  unfold acGetNode bfsArena
  exact getD_map_range_g _ _ _ _ (by omega)

theorem trieOf_eq_bfsArena (p : List Char) :
    trieOf p = bfsArena p 0 := by
  unfold trieOf bfsArena
  rw [List.range_succ, List.map_append]
  congr 1
  · refine List.map_congr_left ?_
    intro e he
    rw [List.mem_range] at he
    unfold pathNode acNodeAt
    rw [if_pos he, if_neg (by omega), if_neg (by omega)]
  · have h1 : List.map (acNodeAt p 0) [p.length] = [acNodeAt p 0 p.length] := rfl
    rw [h1]
    unfold acNodeAt
    rw [if_neg (lt_irrefl p.length), if_neg (by omega : ¬ (1 ≤ p.length ∧ p.length ≤ 0)),
      if_pos rfl]

theorem maxBorder_take_one (p : List Char) (hp : p ≠ []) : maxBorder (p.take 1) = 0 := by
  have hm : 0 < p.length := List.length_pos.mpr hp
  have := maxBorder_take_lt p 1 le_rfl (by omega)
  omega

/-- The root-children pass turns the bare trie into the BFS start state. -/
theorem acRootPass (p : List Char) (hp : p ≠ []) :
    ((acGetNode (trieOf p) 0).children).foldl
      (fun ns cn =>
        let child := acGetNode ns cn.2
        acSetNode ns cn.2 ⟨child.children, some 0, child.output⟩)
      (trieOf p)
      = bfsArena p 1 := by
  have hm : 0 < p.length := List.length_pos.mpr hp
  rw [trieOf_eq_bfsArena]
  rw [acGetNode_bfs p 0 0 (by omega)]
  unfold acNodeAt
  rw [if_pos hm, if_neg (by omega), if_neg (by omega)]
  dsimp only
  rw [List.foldl_cons, List.foldl_nil]
  dsimp only
  rw [acGetNode_bfs p 0 1 (by omega)]
  unfold acSetNode bfsArena
  rw [set_map_range]
  refine List.map_congr_left ?_
  intro e he
  rw [List.mem_range] at he
  by_cases h1 : e = 1
  · subst h1
    rw [if_pos rfl]
    show (⟨(acNodeAt p 0 1).children, some 0, (acNodeAt p 0 1).output⟩ : ACNode)
      = acNodeAt p 1 1
    unfold acNodeAt
    dsimp only
    rw [if_pos (⟨le_rfl, le_rfl⟩ : 1 ≤ 1 ∧ 1 ≤ 1), maxBorder_take_one p hp]
  · rw [if_neg h1]
    unfold acNodeAt
    rw [if_neg (by omega : ¬ (1 ≤ e ∧ e ≤ 0)),
      if_neg (by omega : ¬ (1 ≤ e ∧ e ≤ 1))]

theorem childLookup_acNodeAt (p : List Char) (dd e : Nat) (c : Char) :
    childLookup (acNodeAt p dd e).children c
      = if e < p.length ∧ p.getD e ' ' = c then some (e + 1) else none := by
  unfold acNodeAt
  dsimp only
  by_cases h1 : e < p.length
  · rw [if_pos h1, childLookup]
    by_cases h2 : p.getD e ' ' = c
    · rw [if_pos h2, if_pos ⟨h1, h2⟩]
    · rw [if_neg h2, if_neg (fun hc => h2 hc.2), childLookup]
  · rw [if_neg h1, if_neg (fun hc => h1 hc.1), childLookup]

theorem acFailChase_none_any (nodes : List ACNode) (c : Char) (fuel : Nat) :
    acFailChase nodes c fuel none = none := by
  cases fuel <;> rfl

set_option maxHeartbeats 1000000 in
theorem acFailChase_bfs (p : List Char) (dd : Nat) (hddm : dd ≤ p.length) (c : Char)
    (W : List Char) :
    ∀ fuel j, j < fuel → j ≤ dd → p.take j <:+ W →
      (∃ e, acFailChase (bfsArena p dd) c fuel (some j) = some e
          ∧ e ≤ j ∧ e < p.length ∧ p.getD e ' ' = c ∧ p.take e <:+ W
          ∧ (∀ k, e < k → k ≤ j → p.take k <:+ W → ¬ (k < p.length ∧ p.getD k ' ' = c)))
      ∨ (acFailChase (bfsArena p dd) c fuel (some j) = none
          ∧ ∀ k, k ≤ j → p.take k <:+ W → ¬ (k < p.length ∧ p.getD k ' ' = c)) := by
  intro fuel
  induction fuel with
  | zero =>
    intro j hj _ _
    omega
  | succ fuel ih =>
    intro j hfuel hjdd hjw
    rw [acFailChase]
    rw [acGetNode_bfs p dd j (by omega)]
    rw [childLookup_acNodeAt]
    by_cases hch : j < p.length ∧ p.getD j ' ' = c
    · rw [if_pos hch]
      rw [if_pos (by simp : ((some (j + 1)).isSome = true))]
      left
      exact ⟨j, rfl, le_rfl, hch.1, hch.2, hjw, by intro k h1 h2 _ _; omega⟩
    · rw [if_neg hch]
      rw [if_neg (by simp : ¬ ((none : Option Nat).isSome = true))]
      have hfail : (acNodeAt p dd j).failure
          = if 1 ≤ j ∧ j ≤ dd then some (maxBorder (p.take j)) else none := rfl
      rw [hfail]
      by_cases hj0 : 1 ≤ j
      · rw [if_pos ⟨hj0, hjdd⟩]
        have hblt : maxBorder (p.take j) < j := maxBorder_take_lt p j hj0 (by omega)
        have hbw : p.take (maxBorder (p.take j)) <:+ W :=
          (maxBorder_take_suffix p j (by omega)).trans hjw
        rcases ih (maxBorder (p.take j)) (by omega) (by omega) hbw with
          ⟨e, heq, he1, he2, he3, he4, he5⟩ | ⟨heq, hmax⟩
        · left
          refine ⟨e, heq, by omega, he2, he3, he4, ?_⟩
          intro k hk1 hk2 hkw
          by_cases hkb : k ≤ maxBorder (p.take j)
          · exact he5 k hk1 hkb hkw
          · by_cases hkj : k < j
            · exact absurd (no_border_between p W j k (by omega) hkj hkw hjw) (by omega)
            · have : k = j := by omega
              subst this
              exact hch
        · right
          refine ⟨heq, ?_⟩
          intro k hk2 hkw
          by_cases hkb : k ≤ maxBorder (p.take j)
          · exact hmax k hkb hkw
          · by_cases hkj : k < j
            · exact absurd (no_border_between p W j k (by omega) hkj hkw hjw) (by omega)
            · have : k = j := by omega
              subst this
              exact hch
      · rw [if_neg (fun hc => hj0 hc.1)]
        rw [acFailChase_none_any]
        right
        refine ⟨rfl, ?_⟩
        intro k hk2 hkw
        have : k = 0 := by omega
        subst this
        have : j = 0 := by omega
        subst this
        exact hch

theorem maxBorder_succ_of_candidate (p : List Char) (d : Nat) (hd1 : 1 ≤ d)
    (hdm : d < p.length) (e : Nat) (he1 : e ≤ maxBorder (p.take d))
    (he4 : p.take e <:+ p.take d) (he3 : p.getD e ' ' = p.getD d ' ')
    (he5 : ∀ k, e < k → k ≤ maxBorder (p.take d) → p.take k <:+ p.take d →
      ¬ (k < p.length ∧ p.getD k ' ' = p.getD d ' ')) :
    maxBorder (p.take (d + 1)) = e + 1 := by
  have hblt : maxBorder (p.take d) < d := maxBorder_take_lt p d hd1 (by omega)
  have hext : p.take (e + 1) <:+ p.take (d + 1) :=
    (suffix_take_succ_iff p p d e (by omega) (by omega)).mpr ⟨he4, he3⟩
  have hge : e + 1 ≤ maxBorder (p.take (d + 1)) :=
    maxBorder_le_border p (d + 1) (e + 1) (by omega) (by omega) (by omega) hext
  have hle : maxBorder (p.take (d + 1)) ≤ e + 1 := by
    by_contra hlt
    push_neg at hlt
    obtain ⟨B', hBeq, hB's, hB'c, hB'i, hB'j⟩ :=
      maxBorder_succ_decomp p d hdm (by omega)
    rw [hBeq] at hlt
    exact he5 B' (by omega) hB'j hB's ⟨by omega, hB'c⟩
  omega

theorem maxBorder_succ_of_no_candidate (p : List Char) (d : Nat) (_hd1 : 1 ≤ d)
    (hdm : d < p.length)
    (hmax : ∀ k, k ≤ maxBorder (p.take d) → p.take k <:+ p.take d →
      ¬ (k < p.length ∧ p.getD k ' ' = p.getD d ' ')) :
    maxBorder (p.take (d + 1)) = 0 := by
  by_contra hne
  have hBpos : 0 < maxBorder (p.take (d + 1)) := Nat.pos_of_ne_zero hne
  obtain ⟨B', hBeq, hB's, hB'c, hB'i, hB'j⟩ := maxBorder_succ_decomp p d hdm hBpos
  exact hmax B' hB'j hB's ⟨by omega, hB'c⟩

set_option maxHeartbeats 1000000 in
theorem acProcessChild_bfs (p : List Char) (hp : p ≠ []) (d : Nat) (hd1 : 1 ≤ d)
    (hdm : d < p.length) :
    acProcessChild (bfsArena p d) d (p.getD d ' ', d + 1) = bfsArena p (d + 1) := by
  have hm : 0 < p.length := List.length_pos.mpr hp
  unfold acProcessChild
  dsimp only
  rw [bfsArena_length]
  rw [acGetNode_bfs p d d (by omega), acGetNode_bfs p d (d + 1) (by omega)]
  have hfail : (acNodeAt p d d).failure = some (maxBorder (p.take d)) := by
    show (if 1 ≤ d ∧ d ≤ d then some (maxBorder (p.take d)) else none) = _
    rw [if_pos ⟨hd1, le_rfl⟩]
  rw [hfail]
  have hblt : maxBorder (p.take d) < d := maxBorder_take_lt p d hd1 (by omega)
  have hbw : p.take (maxBorder (p.take d)) <:+ p.take d := maxBorder_take_suffix p d (by omega)
  rcases acFailChase_bfs p d (by omega) (p.getD d ' ') (p.take d)
      (p.length + 1 + 1) (maxBorder (p.take d)) (by omega) (by omega) hbw with
    ⟨e, heq, he1, he2, he3, he4, he5⟩ | ⟨heq, hmax⟩
  · rw [heq]
    dsimp only
    have htarget : maxBorder (p.take (d + 1)) = e + 1 :=
      maxBorder_succ_of_candidate p d hd1 hdm e he1 he4 he3 he5
    rw [acGetNode_bfs p d e (by omega), childLookup_acNodeAt,
      if_pos ⟨he2, he3⟩]
    simp only [Option.getD_some]
    have hout : (acGetNode (bfsArena p d) (e + 1)).output = [] := by
      rw [acGetNode_bfs p d (e + 1) (by omega)]
      show (if e + 1 = p.length then [p] else []) = []
      rw [if_neg (by omega)]
    rw [hout]
    show acSetNode (bfsArena p d) (d + 1)
        ⟨(acNodeAt p d (d + 1)).children, some (e + 1),
          (acNodeAt p d (d + 1)).output ++ []⟩ = bfsArena p (d + 1)
    rw [List.append_nil]
    unfold acSetNode bfsArena
    rw [set_map_range]
    refine List.map_congr_left ?_
    intro ee hee
    rw [List.mem_range] at hee
    by_cases h1 : ee = d + 1
    · subst h1
      rw [if_pos rfl]
      show (⟨(acNodeAt p d (d + 1)).children, some (e + 1),
        (acNodeAt p d (d + 1)).output⟩ : ACNode) = acNodeAt p (d + 1) (d + 1)
      unfold acNodeAt
      dsimp only
      rw [if_pos (⟨by omega, le_rfl⟩ : 1 ≤ d + 1 ∧ d + 1 ≤ d + 1), htarget]
    · rw [if_neg h1]
      unfold acNodeAt
      have h2 : (1 ≤ ee ∧ ee ≤ d) ↔ (1 ≤ ee ∧ ee ≤ d + 1) := by omega
      by_cases h3 : 1 ≤ ee ∧ ee ≤ d
      · rw [if_pos h3, if_pos (h2.mp h3)]
      · rw [if_neg h3, if_neg (fun hc => h3 (h2.mpr hc))]
  · rw [heq]
    dsimp only
    have htarget : maxBorder (p.take (d + 1)) = 0 :=
      maxBorder_succ_of_no_candidate p d hd1 hdm hmax
    have hout : (acGetNode (bfsArena p d) 0).output = [] := by
      rw [acGetNode_bfs p d 0 (by omega)]
      show (if 0 = p.length then [p] else []) = []
      rw [if_neg (by omega)]
    rw [hout]
    show acSetNode (bfsArena p d) (d + 1)
        ⟨(acNodeAt p d (d + 1)).children, some 0,
          (acNodeAt p d (d + 1)).output ++ []⟩ = bfsArena p (d + 1)
    rw [List.append_nil]
    unfold acSetNode bfsArena
    rw [set_map_range]
    refine List.map_congr_left ?_
    intro ee hee
    rw [List.mem_range] at hee
    by_cases h1 : ee = d + 1
    · subst h1
      rw [if_pos rfl]
      show (⟨(acNodeAt p d (d + 1)).children, some 0,
        (acNodeAt p d (d + 1)).output⟩ : ACNode) = acNodeAt p (d + 1) (d + 1)
      unfold acNodeAt
      dsimp only
      rw [if_pos (⟨by omega, le_rfl⟩ : 1 ≤ d + 1 ∧ d + 1 ≤ d + 1), htarget]
    · rw [if_neg h1]
      unfold acNodeAt
      have h2 : (1 ≤ ee ∧ ee ≤ d) ↔ (1 ≤ ee ∧ ee ≤ d + 1) := by omega
      by_cases h3 : 1 ≤ ee ∧ ee ≤ d
      · rw [if_pos h3, if_pos (h2.mp h3)]
      · rw [if_neg h3, if_neg (fun hc => h3 (h2.mpr hc))]

theorem acBfsLoop_nil (fuel : Nat) (nodes : List ACNode) :
    acBfsLoop fuel nodes [] = nodes := by
  cases fuel <;> rfl

theorem acBfsLoop_path (p : List Char) (hp : p ≠ []) :
    ∀ fuel d, 1 ≤ d → d ≤ p.length → p.length + 2 ≤ fuel + d →
      acBfsLoop fuel (bfsArena p d) [d] = bfsArena p p.length := by
  intro fuel
  induction fuel with
  | zero =>
    intro d hd1 hd2 hfuel
    omega
  | succ fuel ih =>
    intro d hd1 hd2 hfuel
    rw [acBfsLoop]
    rw [acGetNode_bfs p d d (by omega)]
    by_cases hdm : d < p.length
    · have hcs : (acNodeAt p d d).children = [(p.getD d ' ', d + 1)] := by
        show (if d < p.length then [(p.getD d ' ', d + 1)] else []) = _
        rw [if_pos hdm]
      rw [hcs]
      rw [List.foldl_cons, List.foldl_nil]
      rw [acProcessChild_bfs p hp d hd1 hdm]
      rw [show ([] ++ [(p.getD d ' ', d + 1)].map Prod.snd) = [d + 1] from rfl]
      exact ih (d + 1) (by omega) (by omega) (by omega)
    · have hdm2 : d = p.length := by omega
      subst hdm2
      have hcs : (acNodeAt p p.length p.length).children = [] := by
        show (if p.length < p.length then [(p.getD p.length ' ', p.length + 1)] else []) = _
        rw [if_neg hdm]
      rw [hcs]
      rw [List.foldl_nil]
      rw [show (([] : List Nat) ++ ([] : List (Char × Nat)).map Prod.snd) = [] from rfl]
      exact acBfsLoop_nil fuel _

theorem trieOf_root_children (p : List Char) (hp : p ≠ []) :
    (acGetNode (trieOf p) 0).children = [(p.getD 0 ' ', 1)] := by
  have hm : 0 < p.length := List.length_pos.mpr hp
  rw [trieOf_eq_bfsArena, acGetNode_bfs p 0 0 (by omega)]
  show (if 0 < p.length then [(p.getD 0 ' ', 1)] else []) = _
  rw [if_pos hm]

theorem acBuildAutomaton_singleton (pat : List Char) (hpat : lowerStr pat ≠ []) :
    acBuildAutomaton [pat] = bfsArena (lowerStr pat) (lowerStr pat).length := by
  have hm : 0 < (lowerStr pat).length := List.length_pos.mpr hpat
  unfold acBuildAutomaton
  dsimp only
  rw [List.foldl_cons, List.foldl_nil]
  rw [acInsertPattern_root]
  unfold acBuildFailureLinks
  dsimp only
  rw [acRootPass _ hpat]
  rw [trieOf_root_children _ hpat]
  rw [show ([(( (lowerStr pat).getD 0 ' '), 1)].map Prod.snd) = [1] from rfl]
  rw [bfsArena_length]
  exact acBfsLoop_path (lowerStr pat) hpat ((lowerStr pat).length + 1) 1 le_rfl (by omega)
    (by omega)

theorem acAddMatch_msSpec (p : List Char) (L : List Nat) (o : Nat) :
    acAddMatch (msSpec p L) p o = msSpec p (L ++ [o]) := by
  unfold msSpec acAddMatch
  by_cases hL : L = []
  · subst hL
    simp
  · rw [if_neg hL, if_neg (by simp : ¬ (L ++ [o] = []))]
    rw [if_pos (by simp)]
    simp

theorem lookupMatches_msSpec (p : List Char) (L : List Nat) :
    lookupMatches (msSpec p L) p = L := by
  unfold lookupMatches msSpec
  by_cases hL : L = []
  · subst hL
    rw [if_pos rfl]
    rfl
  · rw [if_neg hL]
    simp [List.find?]

set_option maxHeartbeats 1000000 in
theorem acSearchStep_spec (p t : List Char) (hp : p ≠ []) (i cur : Nat)
    (ms : List (List Char × List Nat)) (hin : i < t.length) (hcur : cur ≤ p.length)
    (h3 : p.take cur <:+ t.take i)
    (h4 : ∀ k, cur < k → k ≤ p.length → ¬ p.take k <:+ t.take i) :
    ∃ cur', acSearchStep (bfsArena p p.length) (cur, ms) (i, t.getD i ' ')
        = (cur', if cur' = p.length then acAddMatch ms p (i + 1 - p.length) else ms)
      ∧ cur' ≤ p.length ∧ p.take cur' <:+ t.take (i + 1)
      ∧ (∀ k, cur' < k → k ≤ p.length → ¬ p.take k <:+ t.take (i + 1))
      ∧ (cur' = p.length ↔ p <:+ t.take (i + 1)) := by
  have hm : 0 < p.length := List.length_pos.mpr hp
  unfold acSearchStep
  dsimp only
  rw [bfsArena_length]
  rcases acFailChase_bfs p p.length le_rfl (t.getD i ' ') (t.take i)
      (p.length + 1 + 1) cur (by omega) hcur h3 with
    ⟨e, heq, he1, he2, he3, he4, he5⟩ | ⟨heq, hmax⟩
  · rw [heq]
    dsimp only
    rw [acGetNode_bfs p p.length e (by omega), childLookup_acNodeAt, if_pos ⟨he2, he3⟩]
    simp only [Option.getD_some]
    have hsufx : p.take (e + 1) <:+ t.take (i + 1) :=
      (suffix_take_succ_iff t p i e (by omega) (by omega)).mpr ⟨he4, he3⟩
    have hmax' : ∀ k, e + 1 < k → k ≤ p.length → ¬ p.take k <:+ t.take (i + 1) := by
      intro k hk1 hk2 hkw
      obtain ⟨k', rfl⟩ : ∃ k', k = k' + 1 := ⟨k - 1, by omega⟩
      obtain ⟨hs, hc⟩ := (suffix_take_succ_iff t p i k' (by omega) (by omega)).mp hkw
      by_cases hkcur : k' ≤ cur
      · exact he5 k' (by omega) hkcur hs ⟨by omega, hc⟩
      · exact h4 k' (by omega) (by omega) hs
    have hiff : (e + 1 = p.length) ↔ p <:+ t.take (i + 1) := by
      constructor
      · intro hemm
        rw [← take_length_self p, ← hemm]
        exact hsufx
      · intro hocc
        by_contra hne
        refine hmax' p.length (by omega) le_rfl ?_
        rw [take_length_self]
        exact hocc
    refine ⟨e + 1, ?_, by omega, hsufx, hmax', hiff⟩
    congr 1
    have hout : (acGetNode (bfsArena p p.length) (e + 1)).output
        = if e + 1 = p.length then [p] else [] := by
      rw [acGetNode_bfs p p.length (e + 1) (by omega)]
      rfl
    rw [hout]
    by_cases hfin : e + 1 = p.length
    · rw [if_pos hfin, if_pos hfin]
      rfl
    · rw [if_neg hfin, if_neg hfin]
      rfl
  · rw [heq]
    dsimp only
    have hsufx : p.take 0 <:+ t.take (i + 1) := by
      rw [List.take_zero]
      exact List.nil_suffix
    have hmax' : ∀ k, 0 < k → k ≤ p.length → ¬ p.take k <:+ t.take (i + 1) := by
      intro k hk1 hk2 hkw
      obtain ⟨k', rfl⟩ : ∃ k', k = k' + 1 := ⟨k - 1, by omega⟩
      obtain ⟨hs, hc⟩ := (suffix_take_succ_iff t p i k' (by omega) (by omega)).mp hkw
      by_cases hkcur : k' ≤ cur
      · exact hmax k' hkcur hs ⟨by omega, hc⟩
      · exact h4 k' (by omega) (by omega) hs
    have hiff : ((0 : Nat) = p.length) ↔ p <:+ t.take (i + 1) := by
      constructor
      · intro h0
        omega
      · intro hocc
        exfalso
        refine hmax' p.length (by omega) le_rfl ?_
        rw [take_length_self]
        exact hocc
    refine ⟨0, ?_, by omega, hsufx, hmax', hiff⟩
    congr 1
    have hout : (acGetNode (bfsArena p p.length) 0).output
        = if (0 : Nat) = p.length then [p] else [] := by
      rw [acGetNode_bfs p p.length 0 (by omega)]
      rfl
    rw [hout]
    rw [if_neg (by omega : ¬ ((0 : Nat) = p.length)), if_neg (by omega : ¬ ((0 : Nat) = p.length))]
    rfl

set_option maxHeartbeats 1000000 in
theorem acSearchFold_spec (p t : List Char) (hp : p ≠ []) :
    ∀ (s : List Char) (i cur : Nat) (ms : List (List Char × List Nat)),
      s = t.drop i → i ≤ t.length → cur ≤ p.length →
      p.take cur <:+ t.take i →
      (∀ k, cur < k → k ≤ p.length → ¬ p.take k <:+ t.take i) →
      ms = msSpec p (occUpTo t p (i + 1 - p.length)) →
      ((s.enumFrom i).foldl (acSearchStep (bfsArena p p.length)) (cur, ms)).2
        = msSpec p (occUpTo t p (t.length + 1 - p.length)) := by
  have hm : 0 < p.length := List.length_pos.mpr hp
  intro s
  induction s with
  | nil =>
    intro i cur ms hs hi hcur h3 h4 h5
    have hieq : i = t.length := by
      have := congrArg List.length hs
      rw [List.length_drop] at this
      simp at this
      omega
    rw [List.enumFrom_nil, List.foldl_nil]
    rw [h5, hieq]
  | cons c rest ih =>
    intro i cur ms hs hi hcur h3 h4 h5
    have hin : i < t.length := by
      by_contra hge
      push_neg at hge
      have : t.drop i = [] := List.drop_eq_nil_of_le hge
      rw [this] at hs
      exact List.noConfusion hs
    have hc : c = t.getD i ' ' := by
      have h1 : (t.drop i).getD 0 ' ' = c := by rw [← hs]; rfl
      rw [getD_drop_add, Nat.add_zero] at h1
      exact h1.symm
    have hrest : rest = t.drop (i + 1) := by
      have h1 : (t.drop i).tail = rest := by rw [← hs]; rfl
      rw [← h1, List.tail_drop]
    rw [List.enumFrom_cons, List.foldl_cons]
    rw [hc]
    obtain ⟨cur', hstep, hcur', hsufx', hmax', hiff⟩ :=
      acSearchStep_spec p t hp i cur ms hin hcur h3 h4
    rw [hstep]
    have hms' : (if cur' = p.length then acAddMatch ms p (i + 1 - p.length) else ms)
        = msSpec p (occUpTo t p (i + 1 + 1 - p.length)) := by
      by_cases hfin : cur' = p.length
      · rw [if_pos hfin]
        have hocc : p <:+ t.take (i + 1) := hiff.mp hfin
        have hmle : p.length ≤ i + 1 := by
          have := hocc.length_le
          rw [length_take_of_le (by omega)] at this
          exact this
        have hoccd : p <+: t.drop (i + 1 - p.length) := by
          refine (occursAt_iff_suffix t p (i + 1 - p.length) (by omega)).mpr ?_
          rwa [show (i + 1 - p.length) + p.length = i + 1 by omega]
        have hbb : i + 1 + 1 - p.length = (i + 1 - p.length) + 1 := by omega
        rw [hbb, occUpTo_succ_yes t p (i + 1 - p.length) (by omega) hoccd]
        rw [h5, acAddMatch_msSpec]
      · rw [if_neg hfin]
        have hnoocc : ¬ p <:+ t.take (i + 1) := fun hcon => hfin (hiff.mpr hcon)
        rw [h5, occUpTo_bound_succ_of_no_end t p i hnoocc]
    rw [hms']
    exact ih (i + 1) cur' _ hrest (by omega) hcur' hsufx' hmax' rfl

theorem acSearchOne_eq (text pat : List Char) (hpat : pat ≠ []) :
    acSearchOne text pat = matchSpec text pat := by
  have hp' : lowerStr pat ≠ [] := by rwa [Ne, lowerStr_eq_nil_iff]
  have hm : 0 < (lowerStr pat).length := List.length_pos.mpr hp'
  unfold acSearchOne acSearch
  rw [acBuildAutomaton_singleton pat hp']
  rw [show (lowerStr text).enum = (lowerStr text).enumFrom 0 from rfl]
  rw [acSearchFold_spec (lowerStr pat) (lowerStr text) hp' (lowerStr text) 0 0 []
    (by simp) (by omega) (by omega)
    (by rw [List.take_zero, List.take_zero])
    ?_ ?_]
  · rw [lookupMatches_msSpec]
    unfold matchSpec
    rw [if_neg hpat]
    rw [occUpTo_saturated _ _ _ le_rfl]
    rfl
  · intro k hk1 hk2 hkw
    rw [List.take_zero] at hkw
    have h1 : (lowerStr pat).take k = [] := List.suffix_nil.mp hkw
    have h2 := congrArg List.length h1
    rw [length_take_of_le (by omega)] at h2
    simp at h2
    omega
  · rw [show (0 : Nat) + 1 - (lowerStr pat).length = 0 by omega, occUpTo_zero]
    rfl

theorem acSearchStep_empty (st : Nat × List (List Char × List Nat)) (ic : Nat × Char) :
    acSearchStep [⟨[], none, [[]]⟩] st ic = (0, acAddMatch st.2 [] (ic.1 + 1)) := by
  rcases st with ⟨cur, ms⟩
  rcases ic with ⟨i, c⟩
  cases cur <;> rfl

theorem acSearchFold_empty (s : List (Nat × Char)) :
    ∀ (cur : Nat) (ms : List (List Char × List Nat)),
      (s.foldl (acSearchStep [⟨[], none, [[]]⟩]) (cur, ms)).2
        = s.foldl (fun acc ic => acAddMatch acc [] (ic.1 + 1)) ms := by
  induction s with
  | nil =>
    intro cur ms
    rfl
  | cons hd tl ih =>
    intro cur ms
    rw [List.foldl_cons, List.foldl_cons, acSearchStep_empty]
    exact ih 0 _

theorem acEmptyAdd_fold (s : List Char) :
    ∀ (i : Nat) (L : List Nat),
      (s.enumFrom i).foldl (fun acc ic => acAddMatch acc [] (ic.1 + 1)) (msSpec [] L)
        = msSpec [] (L ++ (List.range s.length).map (fun r => i + r + 1)) := by
  induction s with
  | nil =>
    intro i L
    simp
  | cons c rest ih =>
    intro i L
    rw [List.enumFrom_cons, List.foldl_cons]
    rw [show acAddMatch (msSpec [] L) [] (i + 1) = msSpec [] (L ++ [i + 1]) from
      acAddMatch_msSpec [] L (i + 1)]
    rw [ih (i + 1) (L ++ [i + 1])]
    congr 1
    rw [List.length_cons, List.range_succ_eq_map, List.map_cons, List.map_map]
    rw [List.append_assoc, List.singleton_append]
    congr 1
    congr 1
    refine List.map_congr_left ?_
    intro r _
    show i + 1 + r + 1 = i + (r + 1) + 1
    omega

theorem acSearchOne_empty (text : List Char) :
    acSearchOne text [] = (List.range text.length).map (fun i => i + 1) := by
  unfold acSearchOne acSearch
  rw [show acBuildAutomaton [[]] = [⟨[], none, [[]]⟩] from rfl]
  rw [show (lowerStr text).enum = (lowerStr text).enumFrom 0 from rfl]
  rw [acSearchFold_empty]
  rw [show ([] : List (List Char × List Nat)) = msSpec [] [] from rfl]
  rw [acEmptyAdd_fold (lowerStr text) 0 []]
  rw [show lowerStr ([] : List Char) = [] from rfl]
  rw [lookupMatches_msSpec]
  rw [List.nil_append, lowerStr_length']
  refine List.map_congr_left ?_
  intro r _
  omega

theorem matchSpec_sorted (text pat : List Char) : (matchSpec text pat).Sorted (· < ·) := by
  unfold matchSpec
  split_ifs
  · exact List.sorted_nil
  · unfold occList
    exact (List.sorted_lt_range _).filter _

theorem matchSpec_mem (text pat : List Char) (i : Nat) (hpat : pat ≠ []) :
    i ∈ matchSpec text pat ↔ lowerStr pat <+: (lowerStr text).drop i := by
  have hp' : lowerStr pat ≠ [] := by rwa [Ne, lowerStr_eq_nil_iff]
  have hm : 0 < (lowerStr pat).length := List.length_pos.mpr hp'
  unfold matchSpec
  rw [if_neg hpat]
  unfold occList
  rw [List.mem_filter, List.mem_range]
  constructor
  · rintro ⟨_, h2⟩
    exact of_decide_eq_true h2
  · intro h
    refine ⟨?_, decide_eq_true h⟩
    have hlen := h.length_le
    rw [List.length_drop] at hlen
    omega

theorem matchSpec_nil_text (pat : List Char) : matchSpec [] pat = [] := by
  unfold matchSpec
  by_cases hpat : pat = []
  · rw [if_pos hpat]
  · rw [if_neg hpat]
    rw [show lowerStr [] = [] from rfl]
    exact occList_nil_text _ (by rwa [Ne, lowerStr_eq_nil_iff])

/-- C1: KMP and Boyer-Moore match the specification exactly: case-insensitive,
all (overlapping) occurrences, strictly ascending offsets, empty result for an
empty pattern or empty text.  Aho-Corasick restricted to one pattern agrees
for every NON-empty pattern; for the empty pattern it returns the offsets
`[1, ..., len(text)]` instead of an empty list (the root's output holds the
empty pattern and `start_pos = i + 1`), so the claim's empty-pattern sentence
fails for it (see the counterexample). -/
theorem exact_matchers_correct :
    (∀ text pat : List Char, kmpSearch text pat = matchSpec text pat)
    ∧ (∀ text pat : List Char, bmSearch text pat = matchSpec text pat)
    ∧ (∀ text pat : List Char, pat ≠ [] → acSearchOne text pat = matchSpec text pat)
    ∧ (∀ text : List Char, acSearchOne text [] = (List.range text.length).map (fun i => i + 1))
    ∧ (∀ text pat : List Char, (matchSpec text pat).Sorted (· < ·))
    ∧ (∀ (text pat : List Char) (i : Nat), pat ≠ [] →
        (i ∈ matchSpec text pat ↔ lowerStr pat <+: (lowerStr text).drop i))
    ∧ (∀ pat : List Char, matchSpec [] pat = [])
    ∧ (∀ text : List Char, matchSpec text [] = []) :=
  ⟨kmpSearch_eq, bmSearch_eq, acSearchOne_eq, acSearchOne_empty, matchSpec_sorted,
   fun text pat i h => matchSpec_mem text pat i h, matchSpec_nil_text,
   fun _ => rfl⟩

/-- C1 witness: the Aho-Corasick agreement and the occurrence characterization
at concrete inputs. -/
theorem exact_matchers_correct_witness :
    acSearchOne (strL "ababcabab") (strL "ab") = matchSpec (strL "ababcabab") (strL "ab")
    ∧ (0 ∈ matchSpec (strL "ababcabab") (strL "ab")
        ↔ lowerStr (strL "ab") <+: (lowerStr (strL "ababcabab")).drop 0) :=
  ⟨exact_matchers_correct.2.2.1 (strL "ababcabab") (strL "ab") (by decide),
   exact_matchers_correct.2.2.2.2.2.1 (strL "ababcabab") (strL "ab") 0 (by decide)⟩

/-- C1 counterexample: on text "ab" the Aho-Corasick search with the empty
pattern returns [1, 2], not the empty list the claim promises for an empty
pattern. -/
theorem aho_empty_pattern_counterexample :
    acSearchOne (strL "ab") [] = [1, 2] ∧ acSearchOne (strL "ab") [] ≠ [] :=
  ⟨rfl, by decide⟩

/-- C2: KMP and Boyer-Moore return identical offset lists for every text and
pattern, and Aho-Corasick built from the singleton pattern set agrees with
them for every NON-empty pattern (for the empty pattern it disagrees, see the
counterexample); on text "ababcabab" and pattern "ab" all three return
[0, 2, 5, 7]. -/
theorem matcher_equivalence :
    (∀ text pat : List Char, kmpSearch text pat = bmSearch text pat)
    ∧ (∀ text pat : List Char, pat ≠ [] → acSearchOne text pat = kmpSearch text pat)
    ∧ kmpSearch (strL "ababcabab") (strL "ab") = [0, 2, 5, 7]
    ∧ bmSearch (strL "ababcabab") (strL "ab") = [0, 2, 5, 7]
    ∧ acSearchOne (strL "ababcabab") (strL "ab") = [0, 2, 5, 7] :=
  ⟨fun text pat => (kmpSearch_eq text pat).trans (bmSearch_eq text pat).symm,
   fun text pat h => (acSearchOne_eq text pat h).trans (kmpSearch_eq text pat).symm,
   by decide, by decide, by decide⟩

/-- C2 witness: the Aho-Corasick/KMP agreement applied at a concrete non-empty
pattern. -/
theorem matcher_equivalence_witness :
    acSearchOne (strL "a") (strL "a") = kmpSearch (strL "a") (strL "a") :=
  matcher_equivalence.2.1 (strL "a") (strL "a") (by decide)

/-- C2 counterexample: for the empty pattern the Aho-Corasick search returns
[1] on text "a" while KMP returns [], so the agreement fails there. -/
theorem aho_kmp_empty_pattern_disagree :
    acSearchOne (strL "a") [] = [1] ∧ kmpSearch (strL "a") [] = []
    ∧ acSearchOne (strL "a") [] ≠ kmpSearch (strL "a") [] :=
  ⟨rfl, rfl, by decide⟩
